import Mathlib

/-!
Verification of the generic singly linked list container
(src/single-linked-list/single-linked-list.h) against its specification.

The embedding is pointer level.  Machine memory is modelled by `Mem`:
an association list from node addresses (`Nat`) to node records, plus a
counter supplying fresh addresses for `new`.  A list object
(`SingleLinkedList`) is modelled by `LL`: the `next_node` field of its
sentinel `head_` member plus the `size_` counter.  An iterator value is a
bare node pointer (`Ptr`), matching the single `Node* node_` member of
`BasicIterator`; `Ptr.null` is `nullptr`, `Ptr.sentinel` is the address
of the sentinel `head_` of the list under consideration, and `Ptr.node a`
is the address of a real heap node.  Operations whose C++ execution is
undefined (dereferencing or writing through a null or dangling pointer)
are modelled as `none`.
-/

namespace SLL

/-- Pointer value stored in iterators and in the `next_node` field of a
node: a null pointer, the address of the sentinel `head_` member of the
list under consideration, or the address of a heap allocated node. -/
inductive Ptr where
  | null : Ptr
  | sentinel : Ptr
  | node : Nat → Ptr
deriving DecidableEq, Repr

/-- Model of `SingleLinkedList::Node`: one element value and the raw
`next_node` link. -/
structure Node (α : Type) where
  value : α
  next_node : Ptr
deriving DecidableEq, Repr

/-- Heap: a finite map from addresses to allocated nodes, as an
association list. -/
abbrev Heap (α : Type) := List (Nat × Node α)

/-- Machine memory: the heap of live nodes plus a counter producing a
fresh address for each `new` expression. -/
structure Mem (α : Type) where
  heap : Heap α
  fresh : Nat
deriving DecidableEq, Repr

/-- Model of the data members of `SingleLinkedList` itself: the
`next_node` field of the sentinel `head_` and the `size_` counter. -/
structure LL where
  headNext : Ptr
  size_ : Nat
deriving DecidableEq, Repr

/-- Memory with no allocated nodes. -/
def emptyMem (α : Type) : Mem α := ⟨[], 0⟩

/-- State of a default constructed list: `head_.next_node == nullptr`
and `size_ == 0`. -/
def emptyLL : LL := ⟨Ptr.null, 0⟩

/-- Heap lookup at an address (reading through a `Node*`). -/
def hfind (h : Heap α) (a : Nat) : Option (Node α) :=
  match h with
  | [] => none
  | (k, nd) :: t => if k = a then some nd else hfind t a

/-- Heap update writing the `next_node` field of the node at address
`a` (the statement `p->next_node = q`). -/
def setNextH (h : Heap α) (a : Nat) (q : Ptr) : Heap α :=
  match h with
  | [] => []
  | (k, nd) :: t =>
    if k = a then (k, ⟨nd.value, q⟩) :: t else (k, nd) :: setNextH t a q

/-- Heap deallocation of the node at address `a` (the statement
`delete p`). -/
def removeKey (h : Heap α) (a : Nat) : Heap α :=
  match h with
  | [] => []
  | (k, nd) :: t => if k = a then t else (k, nd) :: removeKey t a

/-- Addresses of the allocated nodes of a heap. -/
def keys (h : Heap α) : List Nat := h.map Prod.fst

/-- Addresses of the entries of an address and value listing. -/
def addrs (l : List (Nat × α)) : List Nat := l.map Prod.fst

/-- Values of the entries of an address and value listing. -/
def vals (l : List (Nat × α)) : List α := l.map Prod.snd

/-- Reading `p->next_node`, where `Ptr.sentinel` denotes the sentinel of
the list `ll`.  Reading through a null or dangling pointer is undefined
behaviour, modelled as `none`. -/
def getNextPtr (m : Mem α) (ll : LL) (p : Ptr) : Option Ptr :=
  match p with
  | Ptr.null => none
  | Ptr.sentinel => some ll.headNext
  | Ptr.node a => (hfind m.heap a).map (fun nd => nd.next_node)

/-- Writing `p->next_node = q`, where `Ptr.sentinel` denotes the
sentinel of the list `ll`.  Writing through a null or dangling pointer
is undefined behaviour, modelled as `none`. -/
def setNextPtr (m : Mem α) (ll : LL) (p : Ptr) (q : Ptr) :
    Option (Mem α × LL) :=
  match p with
  | Ptr.null => none
  | Ptr.sentinel => some (m, ⟨q, ll.size_⟩)
  | Ptr.node a =>
    match hfind m.heap a with
    | none => none
    | some _ => some (⟨setNextH m.heap a q, m.fresh⟩, ll)

/-- Iterator returned by `begin()`: `Iterator{ head_.next_node }`. -/
def beginIter (ll : LL) : Ptr := ll.headNext

/-- Iterator returned by `end()`: `Iterator{ nullptr }`, for every list. -/
def endIter (_ll : LL) : Ptr := Ptr.null

/-- Iterator returned by `before_begin()`: the address of the sentinel
`head_`. -/
def beforeBegin : Ptr := Ptr.sentinel

/-- Value of a default constructed iterator: the member initializer
`Node* node_ = nullptr`. -/
def iterDefault : Ptr := Ptr.null

/-- Iterator `operator==`: `node_ == rhs.node_`. -/
def iterEq (p q : Ptr) : Bool := decide (p = q)

/-- Iterator `operator!=`: `node_ != rhs.node_`. -/
def iterNe (p q : Ptr) : Bool := decide (¬ p = q)

/-- Iterator dereference `operator*`: `node_->value`.  Undefined
(modelled `none`) unless the iterator references a real node. -/
def derefIter (m : Mem α) (p : Ptr) : Option α :=
  match p with
  | Ptr.node a => (hfind m.heap a).map (fun nd => nd.value)
  | _ => none

/-- Method `GetSize()`: returns `size_`. -/
def GetSize (ll : LL) : Nat := ll.size_

/-- Method `IsEmpty()`: `head_.next_node == nullptr ? true : false`. -/
def IsEmpty (ll : LL) : Bool :=
  if ll.headNext = Ptr.null then true else false

/-- Method `PushFront(value)`:
`head_.next_node = new Node(value, head_.next_node); ++size_;`. -/
def PushFront (m : Mem α) (ll : LL) (v : α) : Mem α × LL :=
  (⟨(m.fresh, ⟨v, ll.headNext⟩) :: m.heap, m.fresh + 1⟩,
   ⟨Ptr.node m.fresh, ll.size_ + 1⟩)

/-- Method `InsertAfter(pos, value)`: allocates
`new Node(value, pos.node_->next_node)`, then executes
`pos.node_->next_node = inserted; ++size_;` and returns an iterator to
the inserted node. -/
def InsertAfter (m : Mem α) (ll : LL) (pos : Ptr) (v : α) :
    Option (Mem α × LL × Ptr) := do
  let nxt ← getNextPtr m ll pos
  let a := m.fresh
  let m1 : Mem α := ⟨(a, ⟨v, nxt⟩) :: m.heap, a + 1⟩
  let (m2, ll2) ← setNextPtr m1 ll pos (Ptr.node a)
  some (m2, ⟨ll2.headNext, ll2.size_ + 1⟩, Ptr.node a)

/-- Method `EraseAfter(pos)`: reads `eraze_me = pos.node_->next_node`
and `next_to_erazed = eraze_me->next_node`, relinks
`pos.node_->next_node = next_to_erazed`, deallocates `eraze_me`,
decrements `size_`, and returns an iterator to `next_to_erazed`. -/
def EraseAfter (m : Mem α) (ll : LL) (pos : Ptr) :
    Option (Mem α × LL × Ptr) := do
  let er ← getNextPtr m ll pos
  match er with
  | Ptr.node b =>
    match hfind m.heap b with
    | none => none
    | some nd => do
      let (m2, ll2) ← setNextPtr m ll pos nd.next_node
      some (⟨removeKey m2.heap b, m2.fresh⟩,
            ⟨ll2.headNext, ll2.size_ - 1⟩, nd.next_node)
  | _ => none

/-- Method `PopFront()`: `EraseAfter(before_begin())`. -/
def PopFront (m : Mem α) (ll : LL) : Option (Mem α × LL × Ptr) :=
  EraseAfter m ll beforeBegin

/-- Loop body of `Clear()`: repeatedly deletes the first node and
advances `head_.next_node`, until it is null.  The fuel argument is a
modelling device for the `while` loop; it is sufficient whenever the
chain is acyclic and all its nodes are allocated. -/
def clearFuel (h : Heap α) (hn : Ptr) (fuel : Nat) : Option (Heap α) :=
  match hn with
  | Ptr.null => some h
  | Ptr.sentinel => none
  | Ptr.node a =>
    match fuel with
    | 0 => none
    | fuel' + 1 =>
      match hfind h a with
      | none => none
      | some nd => clearFuel (removeKey h a) nd.next_node fuel'

/-- Method `Clear()`: deallocates every node of the chain, sets
`head_.next_node` to null and `size_` to 0. -/
def ClearOp (m : Mem α) (ll : LL) : Option (Mem α × LL) :=
  (clearFuel m.heap ll.headNext m.heap.length).map
    (fun h => (⟨h, m.fresh⟩, ⟨Ptr.null, 0⟩))

/-- Method `swap(other)`: exchanges `head_.next_node` and `size_`
between the two list objects; the heap is untouched. -/
def swapLL (a b : LL) : LL × LL := (b, a)

/-- One iteration of the loop body of `Create`:
`prev->next_node = new Node(*it, nullptr); prev = prev->next_node;
++size_;`.  The value has already been copied. -/
def createStep (m : Mem α) (ll : LL) (prev : Ptr) (w : α) :
    Option (Mem α × LL × Ptr) := do
  let m1 : Mem α := ⟨(m.fresh, ⟨w, Ptr.null⟩) :: m.heap, m.fresh + 1⟩
  let (m2, ll2) ← setNextPtr m1 ll prev (Ptr.node m.fresh)
  some (m2, ⟨ll2.headNext, ll2.size_ + 1⟩, Ptr.node m.fresh)

/-- Loop of `Create(range_b, range_e)` over the remaining values, with
the element copy constructor modelled by `cp` (`cp v = none` models a
throwing copy).  When a copy throws, the exception unwinds through the
enclosing constructor, running the destructor of the partially built
list (`Clear`), and propagates: the result list is `none`.  The
unreachable fallback branches return the current memory. -/
def createEAux (cp : α → Option α) (m : Mem α) (ll : LL) (prev : Ptr) :
    List α → Mem α × Option LL
  | [] => (m, some ll)
  | v :: rest =>
    match cp v with
    | none =>
      match ClearOp m ll with
      | some (m2, _) => (m2, none)
      | none => (m, none)
    | some w =>
      match createStep m ll prev w with
      | some (m2, ll2, p2) => createEAux cp m2 ll2 p2 rest
      | none => (m, none)

/-- Method `Create(range_b, range_e)` called on the list `ll`, with the
values of the range given as a list: starts with `prev = &head_` and
appends one node per value. -/
def CreateOp (cp : α → Option α) (m : Mem α) (ll : LL) (vs : List α) :
    Mem α × Option LL :=
  createEAux cp m ll Ptr.sentinel vs

/-- Constructor `SingleLinkedList(std::initializer_list)` on a default
constructed object: builds a temporary via `Create` and swaps it in.
The net result is the created list. -/
def initList (cp : α → Option α) (m : Mem α) (vs : List α) :
    Mem α × Option LL :=
  CreateOp cp m emptyLL vs

/-- Iteration of a chain from a pointer, collecting the values, as the
iterator pair `begin()`/`end()` produces them.  Fuel is a modelling
device; it is sufficient for acyclic chains of allocated nodes. -/
def toListAux (h : Heap α) (p : Ptr) (fuel : Nat) : Option (List α) :=
  match p with
  | Ptr.null => some []
  | Ptr.sentinel => none
  | Ptr.node a =>
    match fuel with
    | 0 => none
    | fuel' + 1 =>
      match hfind h a with
      | none => none
      | some nd =>
        match toListAux h nd.next_node fuel' with
        | none => none
        | some rest => some (nd.value :: rest)

/-- Element sequence of a list, obtained by iterating from `begin()` to
`end()`. -/
def toListF (m : Mem α) (ll : LL) : Option (List α) :=
  toListAux m.heap ll.headNext (m.heap.length + 1)

/-- Copy constructor `SingleLinkedList(const SingleLinkedList& other)`
on a default constructed object: reads the source values through
iteration and builds an independent chain via `Create` on a temporary,
then swaps it in. -/
def CopyCtorE (cp : α → Option α) (m : Mem α) (src : LL) :
    Mem α × Option LL :=
  match toListF m src with
  | none => (m, none)
  | some vs => initList cp m vs

/-- Copy assignment `operator=`: builds `copy_rhs(rhs)`, swaps it with
the left hand side, and destroys the temporary (now holding the old
left hand side content).  If the copy throws, the exception propagates
before the swap and the left hand side object is untouched. -/
def assignE (cp : α → Option α) (m : Mem α) (lhs rhs : LL) :
    Mem α × Option LL :=
  match CopyCtorE cp m rhs with
  | (m1, none) => (m1, none)
  | (m1, some cpLL) =>
    match ClearOp m1 lhs with
    | some (m2, _) => (m2, some cpLL)
    | none => (m1, some cpLL)

/-- Free `operator==`: `std::equal(lhs.begin(), lhs.end(), rhs.begin())`,
the three iterator overload.  It walks the left list; at each step it
dereferences the right iterator unconditionally, which is undefined
behaviour (`none`) once the right list is exhausted. -/
def stdEqualAux [BEq α] (h : Heap α) (p1 p2 : Ptr) (fuel : Nat) :
    Option Bool :=
  match p1 with
  | Ptr.null => some true
  | Ptr.sentinel => none
  | Ptr.node a =>
    match fuel with
    | 0 => none
    | fuel' + 1 =>
      match hfind h a with
      | none => none
      | some nd1 =>
        match p2 with
        | Ptr.node b =>
          match hfind h b with
          | none => none
          | some nd2 =>
            if nd1.value == nd2.value then
              stdEqualAux h nd1.next_node nd2.next_node fuel'
            else some false
        | _ => none

/-- Free `operator==` over two lists living in the same memory. -/
def listEqOp [BEq α] (m : Mem α) (a b : LL) : Option Bool :=
  stdEqualAux m.heap a.headNext b.headNext (m.heap.length + 1)

/-- Free `operator!=`: `!(lhs == rhs)`. -/
def listNeOp [BEq α] (m : Mem α) (a b : LL) : Option Bool :=
  (listEqOp m a b).map (fun x => !x)

/-- Free `operator<`:
`std::lexicographical_compare(lhs.begin(), lhs.end(), rhs.begin(), rhs.end())`
with the element ordering `lt`. -/
def stdLexAux (lt : α → α → Bool) (h : Heap α) (p1 p2 : Ptr)
    (fuel : Nat) : Option Bool :=
  match p1 with
  | Ptr.null => some (decide (¬ p2 = Ptr.null))
  | Ptr.sentinel => none
  | Ptr.node a =>
    match p2 with
    | Ptr.null => some false
    | Ptr.sentinel => none
    | Ptr.node b =>
      match fuel with
      | 0 => none
      | fuel' + 1 =>
        match hfind h a with
        | none => none
        | some nd1 =>
          match hfind h b with
          | none => none
          | some nd2 =>
            if lt nd1.value nd2.value then some true
            else if lt nd2.value nd1.value then some false
            else stdLexAux lt h nd1.next_node nd2.next_node fuel'

/-- Free `operator<` over two lists living in the same memory. -/
def listLtOp (lt : α → α → Bool) (m : Mem α) (a b : LL) : Option Bool :=
  stdLexAux lt m.heap a.headNext b.headNext (m.heap.length + 1)

/-- Free `operator<=`: `!(rhs < lhs)`. -/
def listLeOp (lt : α → α → Bool) (m : Mem α) (a b : LL) : Option Bool :=
  (listLtOp lt m b a).map (fun x => !x)

/-- Free `operator>`: `rhs < lhs`. -/
def listGtOp (lt : α → α → Bool) (m : Mem α) (a b : LL) : Option Bool :=
  listLtOp lt m b a

/-- Free `operator>=`: `!(rhs > lhs)`. -/
def listGeOp (lt : α → α → Bool) (m : Mem α) (a b : LL) : Option Bool :=
  (listGtOp lt m b a).map (fun x => !x)

/-- Lexicographic comparison of value sequences, stated from the words
of the specification (ordering is lexicographic using the element
ordering); used to check the iterator level comparison against it. -/
def lexLt (lt : α → α → Bool) : List α → List α → Bool
  | [], [] => false
  | [], _ :: _ => true
  | _ :: _, [] => false
  | a :: as, b :: bs =>
    if lt a b then true else if lt b a then false else lexLt lt as bs

/-- Chain segment: `Seg h p q l` states that starting at pointer `p`
and repeatedly following `next_node` links through allocated nodes, the
addresses and values listed in `l` are traversed and the pointer `q` is
reached. -/
inductive Seg (h : Heap α) : Ptr → Ptr → List (Nat × α) → Prop where
  | nil : Seg h p p []
  | cons {a : Nat} {v : α} {nxt q : Ptr} {rest : List (Nat × α)} :
      hfind h a = some ⟨v, nxt⟩ → Seg h nxt q rest →
      Seg h (Ptr.node a) q ((a, v) :: rest)

/-- Full chain: a segment that ends at the null pointer, i.e. the whole
node sequence of a list whose head pointer is `p`. -/
def Chain (h : Heap α) (p : Ptr) (l : List (Nat × α)) : Prop :=
  Seg h p Ptr.null l

theorem seg_append {h : Heap α} {p q r : Ptr} {l1 l2 : List (Nat × α)}
    (h1 : Seg h p q l1) (h2 : Seg h q r l2) : Seg h p r (l1 ++ l2) := by
  induction h1 with
  | nil => simpa using h2
  | cons hf _ ih => exact Seg.cons hf (ih h2)

theorem seg_split {h : Heap α} {p r : Ptr} {l1 l2 : List (Nat × α)}
    (hs : Seg h p r (l1 ++ l2)) : ∃ q, Seg h p q l1 ∧ Seg h q r l2 := by
  induction l1 generalizing p with
  | nil => exact ⟨p, Seg.nil, hs⟩
  | cons x t ih =>
    obtain ⟨a, v⟩ := x
    cases hs with
    | cons hf hrest =>
      obtain ⟨q, hq1, hq2⟩ := ih hrest
      exact ⟨q, Seg.cons hf hq1, hq2⟩

theorem seg_null_determ {h : Heap α} {p q : Ptr} {l1 l2 : List (Nat × α)}
    (h1 : Seg h p q l1) (hq : q = Ptr.null) (h2 : Chain h p l2) :
    l1 = l2 := by
  induction h1 generalizing l2 with
  | nil =>
    subst hq
    cases h2 with | nil => rfl
  | cons hf _ ih =>
    cases h2 with
    | cons hf2 hs2 =>
      rw [hf] at hf2
      injection hf2 with hnd
      injection hnd with hv hn
      subst hv; subst hn
      rw [ih hq hs2]

theorem chain_determ {h : Heap α} {p : Ptr} {l1 l2 : List (Nat × α)}
    (h1 : Chain h p l1) (h2 : Chain h p l2) : l1 = l2 :=
  seg_null_determ h1 rfl h2

theorem seg_mem_hfind {h : Heap α} {p q : Ptr} {l : List (Nat × α)}
    {a : Nat} {v : α} (hs : Seg h p q l) (hm : (a, v) ∈ l) :
    ∃ nxt, hfind h a = some ⟨v, nxt⟩ := by
  induction hs with
  | nil => cases hm
  | cons hf _ ih =>
    rcases List.mem_cons.mp hm with heq | hmem
    · injection heq with h1 h2; subst h1; subst h2; exact ⟨_, hf⟩
    · exact ih hmem

theorem hfind_mem_keys {h : Heap α} {a : Nat} {nd : Node α}
    (hf : hfind h a = some nd) : a ∈ keys h := by
  induction h with
  | nil => simp [hfind] at hf
  | cons e t ih =>
    obtain ⟨k, nd'⟩ := e
    by_cases hk : k = a
    · subst hk; simp [keys]
    · rw [hfind, if_neg hk] at hf
      simpa [keys] using Or.inr (by simpa [keys] using ih hf)

theorem seg_agree {h h2 : Heap α} {p q : Ptr} {l : List (Nat × α)}
    (hag : ∀ a ∈ addrs l, hfind h2 a = hfind h a) (hs : Seg h p q l) :
    Seg h2 p q l := by
  induction hs with
  | nil => exact Seg.nil
  | cons hf hrest ih =>
    refine Seg.cons ?_ (ih fun a ha => hag a ?_)
    · rw [hag _ (by simp [addrs])]; exact hf
    · simp [addrs] at ha ⊢
      exact Or.inr ha

theorem seg_null_nodup {h : Heap α} {p q : Ptr} {l : List (Nat × α)}
    (hs : Seg h p q l) (hq : q = Ptr.null) : (addrs l).Nodup := by
  induction hs with
  | nil => simp [addrs]
  | cons hf hrest ih =>
    rename_i a v nxt q' rest
    subst hq
    refine List.nodup_cons.mpr ⟨?_, ih rfl⟩
    intro hmem
    simp only [addrs, List.mem_map] at hmem
    obtain ⟨⟨a', w⟩, hmm, ha⟩ := hmem
    simp only at ha
    subst ha
    obtain ⟨s, t, rfl⟩ := List.append_of_mem hmm
    obtain ⟨q, hq1, hq2⟩ := seg_split hrest
    cases hq2 with
    | cons hf2 ht =>
      rw [hf] at hf2
      injection hf2 with hnd
      injection hnd with hv hn
      subst hv; subst hn
      have hdet := chain_determ hrest ht
      have hlen := congrArg List.length hdet
      simp at hlen
      omega

theorem chain_nodup {h : Heap α} {p : Ptr} {l : List (Nat × α)}
    (hs : Chain h p l) : (addrs l).Nodup :=
  seg_null_nodup hs rfl

theorem chain_keys_sub {h : Heap α} {p : Ptr} {l : List (Nat × α)}
    (hs : Chain h p l) : addrs l ⊆ keys h := by
  intro a ha
  simp only [addrs, List.mem_map] at ha
  obtain ⟨⟨a', w⟩, hmm, ha⟩ := ha
  simp only at ha
  subst ha
  obtain ⟨nxt, hf⟩ := seg_mem_hfind hs hmm
  exact hfind_mem_keys hf

theorem chain_length_le {h : Heap α} {p : Ptr} {l : List (Nat × α)}
    (hs : Chain h p l) : l.length ≤ h.length := by
  have hsub := List.subperm_of_subset (chain_nodup hs) (chain_keys_sub hs)
  have := hsub.length_le
  simpa [addrs, keys] using this

/-- Head pointer of a listed chain: null when the listing is empty,
else the address of its first node. -/
def headPtr (l : List (Nat × α)) : Ptr :=
  match l with
  | [] => Ptr.null
  | (c, _) :: _ => Ptr.node c

theorem seg_headPtr {h : Heap α} {p : Ptr} {l : List (Nat × α)}
    (hs : Chain h p l) : p = headPtr l := by
  cases hs with
  | nil => rfl
  | cons hf hrest => rfl

theorem hfind_cons_self {h : Heap α} {a : Nat} {nd : Node α} :
    hfind ((a, nd) :: h) a = some nd := by
  simp [hfind]

theorem hfind_cons_ne {h : Heap α} {a b : Nat} {nd : Node α}
    (hne : ¬ a = b) : hfind ((a, nd) :: h) b = hfind h b := by
  simp [hfind, hne]

theorem hfind_setNextH_self {h : Heap α} {a : Nat} {nd : Node α}
    (q : Ptr) (hf : hfind h a = some nd) :
    hfind (setNextH h a q) a = some ⟨nd.value, q⟩ := by
  induction h with
  | nil => simp [hfind] at hf
  | cons e t ih =>
    obtain ⟨k, nd'⟩ := e
    by_cases hk : k = a
    · subst hk
      rw [hfind, if_pos rfl] at hf
      injection hf with hf
      subst hf
      simp [setNextH, hfind]
    · rw [hfind, if_neg hk] at hf
      rw [setNextH, if_neg hk, hfind, if_neg hk]
      exact ih hf

theorem hfind_setNextH_ne {h : Heap α} {a b : Nat} {q : Ptr}
    (hne : ¬ b = a) : hfind (setNextH h a q) b = hfind h b := by
  induction h with
  | nil => simp [setNextH]
  | cons e t ih =>
    obtain ⟨k, nd'⟩ := e
    by_cases hk : k = a
    · subst hk
      rw [setNextH, if_pos rfl, hfind, hfind]
      have : ¬ k = b := fun hc => hne hc.symm
      rw [if_neg this, if_neg this]
    · rw [setNextH, if_neg hk, hfind, hfind]
      by_cases hkb : k = b
      · rw [if_pos hkb, if_pos hkb]
      · rw [if_neg hkb, if_neg hkb]; exact ih

theorem hfind_removeKey_ne {h : Heap α} {a b : Nat}
    (hne : ¬ b = a) : hfind (removeKey h a) b = hfind h b := by
  induction h with
  | nil => simp [removeKey]
  | cons e t ih =>
    obtain ⟨k, nd'⟩ := e
    by_cases hk : k = a
    · subst hk
      rw [removeKey, if_pos rfl, hfind]
      have : ¬ k = b := fun hc => hne hc.symm
      rw [if_neg this]
    · rw [removeKey, if_neg hk, hfind, hfind]
      by_cases hkb : k = b
      · rw [if_pos hkb, if_pos hkb]
      · rw [if_neg hkb, if_neg hkb]; exact ih

theorem keys_setNextH {h : Heap α} {a : Nat} {q : Ptr} :
    keys (setNextH h a q) = keys h := by
  induction h with
  | nil => rfl
  | cons e t ih =>
    obtain ⟨k, nd'⟩ := e
    by_cases hk : k = a
    · subst hk; simp [setNextH, keys]
    · simp only [setNextH, if_neg hk, keys, List.map_cons]
      simpa [keys] using ih

theorem removeKey_sublist {h : Heap α} {a : Nat} :
    List.Sublist (removeKey h a) h := by
  induction h with
  | nil => simp [removeKey]
  | cons e t ih =>
    obtain ⟨k, nd'⟩ := e
    by_cases hk : k = a
    · subst hk
      rw [removeKey, if_pos rfl]
      exact List.sublist_cons_self _ _
    · rw [removeKey, if_neg hk]
      exact List.Sublist.cons₂ _ ih

theorem keys_removeKey_sublist {h : Heap α} {a : Nat} :
    List.Sublist (keys (removeKey h a)) (keys h) :=
  List.Sublist.map _ removeKey_sublist

theorem removeKey_length {h : Heap α} {a : Nat} {nd : Node α}
    (hf : hfind h a = some nd) :
    (removeKey h a).length + 1 = h.length := by
  induction h with
  | nil => simp [hfind] at hf
  | cons e t ih =>
    obtain ⟨k, nd'⟩ := e
    by_cases hk : k = a
    · subst hk; simp [removeKey]
    · rw [hfind, if_neg hk] at hf
      rw [removeKey, if_neg hk]
      have := ih hf
      simp only [List.length_cons]
      omega

/-- Well formedness of a memory: distinct addresses, all below the
fresh counter. -/
abbrev WfM (m : Mem α) : Prop :=
  (keys m.heap).Nodup ∧ ∀ a ∈ keys m.heap, a < m.fresh

theorem chain_keys_lt {m : Mem α} {p : Ptr} {l : List (Nat × α)}
    (hwf : WfM m) (hs : Chain m.heap p l) :
    ∀ a ∈ addrs l, a < m.fresh :=
  fun a ha => hwf.2 a (chain_keys_sub hs ha)

/-- Well formedness of a list object: its chain exists (finite, null
terminated, through allocated nodes) and has exactly `size_` nodes. -/
def Wf (m : Mem α) (ll : LL) : Prop :=
  WfM m ∧ ∃ l, Chain m.heap ll.headNext l ∧ l.length = ll.size_

/-- Invariant stated by the specification: `size_` equals the number of
real nodes reachable from the sentinel, the chain is acyclic (no
address repeats), and the last real node has a null `next_node`. -/
def Invariant (m : Mem α) (ll : LL) : Prop :=
  ∃ l, Chain m.heap ll.headNext l ∧ l.length = ll.size_ ∧
    (addrs l).Nodup ∧
    ∀ l0 a v, l = l0 ++ [(a, v)] → hfind m.heap a = some ⟨v, Ptr.null⟩

theorem wf_invariant {m : Mem α} {ll : LL} (hwf : Wf m ll) :
    Invariant m ll := by
  obtain ⟨hm, l, hch, hlen⟩ := hwf
  refine ⟨l, hch, hlen, chain_nodup hch, ?_⟩
  intro l0 a v hl
  subst hl
  obtain ⟨q, hq1, hq2⟩ := seg_split hch
  cases hq2 with
  | cons hf ht =>
    cases ht with
    | nil => exact hf

/-- Position descriptor for the insert after and erase after
operations: `PosOk pos l1` states that `pos` references the position
right after the prefix `l1` of the chain, i.e. the sentinel when `l1`
is empty, else the last node of `l1`. -/
def PosOk (pos : Ptr) (l1 : List (Nat × α)) : Prop :=
  (pos = Ptr.sentinel ∧ l1 = []) ∨
  ∃ l0 a v, l1 = l0 ++ [(a, v)] ∧ pos = Ptr.node a

theorem pushFront_spec {m : Mem α} {ll : LL} {l : List (Nat × α)}
    (v : α) (hwf : WfM m) (hch : Chain m.heap ll.headNext l) :
    WfM (PushFront m ll v).1 ∧
    Chain (PushFront m ll v).1.heap (PushFront m ll v).2.headNext
      ((m.fresh, v) :: l) ∧
    (PushFront m ll v).2.size_ = ll.size_ + 1 ∧
    m.fresh < (PushFront m ll v).1.fresh ∧
    (∀ a, ¬ a = m.fresh →
      hfind (PushFront m ll v).1.heap a = hfind m.heap a) := by
  have hnotmem : m.fresh ∉ keys m.heap := by
    intro hc
    have := hwf.2 _ hc
    omega
  have hk1 :
      (keys ((m.fresh, (⟨v, ll.headNext⟩ : Node α)) :: m.heap)).Nodup := by
    simp only [keys, List.map_cons]
    exact List.nodup_cons.mpr ⟨by simpa [keys] using hnotmem, hwf.1⟩
  have hk2 : ∀ a ∈ keys ((m.fresh, (⟨v, ll.headNext⟩ : Node α)) :: m.heap),
      a < m.fresh + 1 := by
    intro a ha
    simp only [keys, List.map_cons, List.mem_cons] at ha
    rcases ha with rfl | ha
    · omega
    · have := hwf.2 a (by simpa [keys] using ha)
      omega
  have hchain : Chain ((m.fresh, (⟨v, ll.headNext⟩ : Node α)) :: m.heap)
      (Ptr.node m.fresh) ((m.fresh, v) :: l) := by
    refine Seg.cons hfind_cons_self (seg_agree ?_ hch)
    intro a ha
    have h1 : a ∈ keys m.heap := chain_keys_sub hch ha
    exact hfind_cons_ne (fun hc => hnotmem (hc ▸ h1))
  exact ⟨⟨hk1, hk2⟩, hchain, rfl, Nat.lt_succ_self _,
    fun a hne => hfind_cons_ne (fun hc => hne hc.symm)⟩

theorem addrs_append {l1 l2 : List (Nat × α)} :
    addrs (l1 ++ l2) = addrs l1 ++ addrs l2 := by
  simp [addrs]

theorem wfm_alloc {m : Mem α} (nd : Node α) (hwf : WfM m) :
    WfM (⟨(m.fresh, nd) :: m.heap, m.fresh + 1⟩ : Mem α) := by
  have hnotmem : m.fresh ∉ keys m.heap := by
    intro hc
    have := hwf.2 _ hc
    omega
  constructor
  · simp only [keys, List.map_cons]
    exact List.nodup_cons.mpr ⟨by simpa [keys] using hnotmem, hwf.1⟩
  · intro a ha
    show a < m.fresh + 1
    simp only [keys, List.map_cons, List.mem_cons] at ha
    rcases ha with rfl | ha
    · omega
    · have := hwf.2 a (by simpa [keys] using ha)
      omega

theorem wfm_setNext {m : Mem α} {a : Nat} {q : Ptr} (hwf : WfM m) :
    WfM (⟨setNextH m.heap a q, m.fresh⟩ : Mem α) := by
  constructor
  · show (keys (setNextH m.heap a q)).Nodup
    rw [keys_setNextH]
    exact hwf.1
  · intro b hb
    rw [show keys (setNextH m.heap a q) = keys m.heap from keys_setNextH]
      at hb
    exact hwf.2 b hb

theorem wfm_remove {m : Mem α} {a : Nat} (hwf : WfM m) :
    WfM (⟨removeKey m.heap a, m.fresh⟩ : Mem α) := by
  constructor
  · exact List.Nodup.sublist keys_removeKey_sublist hwf.1
  · intro b hb
    exact hwf.2 b (keys_removeKey_sublist.subset hb)

theorem insertAfter_spec {m : Mem α} {ll : LL} {pos : Ptr}
    {l1 l2 : List (Nat × α)} (v : α) (hwf : WfM m)
    (hch : Chain m.heap ll.headNext (l1 ++ l2)) (hpos : PosOk pos l1) :
    ∃ m' ll', InsertAfter m ll pos v = some (m', ll', Ptr.node m.fresh) ∧
      Chain m'.heap ll'.headNext (l1 ++ (m.fresh, v) :: l2) ∧
      ll'.size_ = ll.size_ + 1 ∧ WfM m' ∧ m'.fresh = m.fresh + 1 ∧
      derefIter m' (Ptr.node m.fresh) = some v ∧
      getNextPtr m' ll' pos = some (Ptr.node m.fresh) := by
  have hkeys_lt := chain_keys_lt hwf hch
  rcases hpos with ⟨rfl, rfl⟩ | ⟨l0, a, u, rfl, rfl⟩
  · -- insertion after the sentinel
    simp only [List.nil_append] at hch
    refine ⟨⟨(m.fresh, ⟨v, ll.headNext⟩) :: m.heap, m.fresh + 1⟩,
      ⟨Ptr.node m.fresh, ll.size_ + 1⟩, rfl, ?_, rfl,
      wfm_alloc _ hwf, rfl, by simp [derefIter, hfind_cons_self], rfl⟩
    refine Seg.cons hfind_cons_self (seg_agree ?_ hch)
    intro b hb
    have hblt := hkeys_lt b (by simpa [addrs] using hb)
    exact hfind_cons_ne (by omega)
  · -- insertion after the node at address a, the last node of l1
    have hch' : Chain m.heap ll.headNext (l0 ++ (a, u) :: l2) := by
      have heq : (l0 ++ [(a, u)]) ++ l2 = l0 ++ (a, u) :: l2 := by simp
      rwa [heq] at hch
    obtain ⟨q, hq1, hq2⟩ := seg_split hch'
    cases hq2 with
    | cons hfa hrest =>
      rename_i nxt
      have hmemk : a ∈ keys m.heap := hfind_mem_keys hfa
      have halt : a < m.fresh := hwf.2 a hmemk
      have hfa_ne : ¬ m.fresh = a := by omega
      have hnd := chain_nodup hch'
      rw [show addrs (l0 ++ (a, u) :: l2) =
            addrs l0 ++ a :: addrs l2 by simp [addrs]] at hnd
      rw [List.nodup_append] at hnd
      obtain ⟨hnd0, hnd2, hdisj⟩ := hnd
      have ha_not0 : a ∉ addrs l0 := fun hc => hdisj hc (by simp)
      have ha_not2 : a ∉ addrs l2 := fun hc =>
        (List.nodup_cons.mp hnd2).1 hc
      -- the updated heap after allocation and relink
      have hf1 : hfind ((m.fresh, (⟨v, nxt⟩ : Node α)) :: m.heap) a
          = some ⟨u, nxt⟩ := by
        rw [hfind_cons_ne hfa_ne]
        exact hfa
      have hgn : getNextPtr m ll (Ptr.node a) = some nxt := by
        simp [getNextPtr, hfa]
      have heval : InsertAfter m ll (Ptr.node a) v =
          some (⟨setNextH ((m.fresh, ⟨v, nxt⟩) :: m.heap) a
                  (Ptr.node m.fresh), m.fresh + 1⟩,
                ⟨ll.headNext, ll.size_ + 1⟩, Ptr.node m.fresh) := by
        simp only [InsertAfter, hgn, Option.bind_eq_bind,
          Option.some_bind, setNextPtr, hf1]
      have hfa2 : hfind (setNextH ((m.fresh, (⟨v, nxt⟩ : Node α))
          :: m.heap) a (Ptr.node m.fresh)) a
          = some ⟨u, Ptr.node m.fresh⟩ := by
        have := hfind_setNextH_self (Ptr.node m.fresh) hf1
        simpa using this
      have hff2 : hfind (setNextH ((m.fresh, (⟨v, nxt⟩ : Node α))
          :: m.heap) a (Ptr.node m.fresh)) m.fresh
          = some ⟨v, nxt⟩ := by
        rw [hfind_setNextH_ne hfa_ne]
        exact hfind_cons_self
      have hagree : ∀ b, b ∈ addrs l0 ∨ b ∈ addrs l2 →
          hfind (setNextH ((m.fresh, (⟨v, nxt⟩ : Node α)) :: m.heap) a
            (Ptr.node m.fresh)) b = hfind m.heap b := by
        intro b hb
        have hbneq_a : ¬ b = a := by
          rcases hb with hb | hb
          · exact fun hc => ha_not0 (hc ▸ hb)
          · exact fun hc => ha_not2 (hc ▸ hb)
        have hblt : b < m.fresh := by
          rcases hb with hb | hb
          · exact hkeys_lt b (by
              simp only [addrs_append, List.mem_append]
              exact Or.inl (by simpa [addrs] using Or.inl hb))
          · exact hkeys_lt b (by
              simp only [addrs_append, List.mem_append]
              exact Or.inr hb)
        rw [hfind_setNextH_ne hbneq_a, hfind_cons_ne (by omega)]
      have hs0 : Seg (setNextH ((m.fresh, (⟨v, nxt⟩ : Node α)) :: m.heap)
          a (Ptr.node m.fresh)) ll.headNext (Ptr.node a) l0 :=
        seg_agree (fun b hb => hagree b (Or.inl hb)) hq1
      have hs2 : Seg (setNextH ((m.fresh, (⟨v, nxt⟩ : Node α)) :: m.heap)
          a (Ptr.node m.fresh)) nxt Ptr.null l2 :=
        seg_agree (fun b hb => hagree b (Or.inr hb)) hrest
      have hsfull : Seg (setNextH ((m.fresh, (⟨v, nxt⟩ : Node α))
          :: m.heap) a (Ptr.node m.fresh)) ll.headNext Ptr.null
          (l0 ++ (a, u) :: (m.fresh, v) :: l2) :=
        seg_append hs0 (Seg.cons hfa2 (Seg.cons hff2 hs2))
      refine ⟨_, _, heval, ?_, rfl, wfm_setNext (wfm_alloc _ hwf), rfl,
        by simp [derefIter, hff2], by simp [getNextPtr, hfa2]⟩
      have heq2 : (l0 ++ [(a, u)]) ++ (m.fresh, v) :: l2
          = l0 ++ (a, u) :: (m.fresh, v) :: l2 := by simp
      rw [heq2]
      exact hsfull

theorem seg_nil_inv {h : Heap α} {p q : Ptr}
    (hs : Seg h p q ([] : List (Nat × α))) : p = q := by
  cases hs with | nil => rfl

theorem seg_cons_inv {h : Heap α} {p q : Ptr} {b : Nat} {w : α}
    {l : List (Nat × α)} (hs : Seg h p q ((b, w) :: l)) :
    p = Ptr.node b ∧ ∃ nxt, hfind h b = some ⟨w, nxt⟩ ∧ Seg h nxt q l := by
  cases hs with | cons hf hrest => exact ⟨rfl, _, hf, hrest⟩

theorem eraseAfter_spec {m : Mem α} {ll : LL} {pos : Ptr}
    {l1 l2 : List (Nat × α)} {b : Nat} {w : α} (hwf : WfM m)
    (hch : Chain m.heap ll.headNext (l1 ++ (b, w) :: l2))
    (hpos : PosOk pos l1) :
    ∃ m' ll', EraseAfter m ll pos = some (m', ll', headPtr l2) ∧
      Chain m'.heap ll'.headNext (l1 ++ l2) ∧
      ll'.size_ = ll.size_ - 1 ∧ WfM m' ∧ m'.fresh = m.fresh ∧
      (l2 = [] ∨
       ∃ c u l2', l2 = (c, u) :: l2' ∧
         derefIter m' (Ptr.node c) = some u) := by
  rcases hpos with ⟨rfl, rfl⟩ | ⟨l0, a, u, rfl, rfl⟩
  · -- erasure after the sentinel: removes the first node
    simp only [List.nil_append] at hch
    obtain ⟨hp, nxt, hfb, hrest⟩ := seg_cons_inv hch
    have hnxt := seg_headPtr hrest
    subst hnxt
    have hnd := chain_nodup hch
    rw [show addrs ((b, w) :: l2) = b :: addrs l2 by simp [addrs]] at hnd
    have hb_not2 : b ∉ addrs l2 := (List.nodup_cons.mp hnd).1
    have heval : EraseAfter m ll Ptr.sentinel =
        some (⟨removeKey m.heap b, m.fresh⟩,
              ⟨headPtr l2, ll.size_ - 1⟩, headPtr l2) := by
      simp only [EraseAfter, getNextPtr, Option.bind_eq_bind,
        Option.some_bind, hp, hfb, setNextPtr]
    have hagree : ∀ c ∈ addrs l2,
        hfind (removeKey m.heap b) c = hfind m.heap c := by
      intro c hc
      exact hfind_removeKey_ne (fun hcb => hb_not2 (hcb ▸ hc))
    refine ⟨_, _, heval, ?_, rfl, wfm_remove hwf, rfl, ?_⟩
    · simpa using seg_agree hagree hrest
    · cases l2 with
      | nil => exact Or.inl rfl
      | cons x l2' =>
        obtain ⟨c, u⟩ := x
        obtain ⟨_, nxt2, hfc, _⟩ := seg_cons_inv hrest
        refine Or.inr ⟨c, u, l2', rfl, ?_⟩
        have : hfind (removeKey m.heap b) c = some ⟨u, nxt2⟩ := by
          rw [hagree c (by simp [addrs])]
          exact hfc
        simp [derefIter, this]
  · -- erasure after the node at address a, the last node of l1
    have hch' : Chain m.heap ll.headNext
        (l0 ++ (a, u) :: (b, w) :: l2) := by
      have heq : (l0 ++ [(a, u)]) ++ (b, w) :: l2
          = l0 ++ (a, u) :: (b, w) :: l2 := by simp
      rwa [heq] at hch
    obtain ⟨q, hq1, hq2⟩ := seg_split hch'
    obtain ⟨hqa, nxt_a, hfa, hrest1⟩ := seg_cons_inv hq2
    subst hqa
    obtain ⟨hab, nxt_b, hfb, hrest2⟩ := seg_cons_inv hrest1
    subst hab
    have hnxtb := seg_headPtr hrest2
    subst hnxtb
    have hnd := chain_nodup hch'
    rw [show addrs (l0 ++ (a, u) :: (b, w) :: l2)
          = addrs l0 ++ a :: b :: addrs l2 by simp [addrs]] at hnd
    rw [List.nodup_append] at hnd
    obtain ⟨hnd0, hndr, hdisj⟩ := hnd
    obtain ⟨ha_notr, hndr2⟩ := List.nodup_cons.mp hndr
    obtain ⟨hb_not2, hnd2⟩ := List.nodup_cons.mp hndr2
    have hab_ne : ¬ a = b := fun hc => ha_notr (by simp [hc])
    have ha_not0 : a ∉ addrs l0 := fun hc => hdisj hc (by simp)
    have hb_not0 : b ∉ addrs l0 := fun hc => hdisj hc (by simp)
    have ha_not2 : a ∉ addrs l2 := fun hc => ha_notr (by simp [hc])
    have heval : EraseAfter m ll (Ptr.node a) =
        some (⟨removeKey (setNextH m.heap a (headPtr l2)) b, m.fresh⟩,
              ⟨ll.headNext, ll.size_ - 1⟩, headPtr l2) := by
      simp only [EraseAfter, getNextPtr, hfa, Option.map_some',
        Option.bind_eq_bind, Option.some_bind, hfb, setNextPtr]
    have hfa2 : hfind (setNextH m.heap a (headPtr l2)) a
        = some ⟨u, headPtr l2⟩ := by
      have := hfind_setNextH_self (headPtr l2) hfa
      simpa using this
    have hagree : ∀ c, c ∈ addrs l0 ∨ c ∈ addrs l2 →
        hfind (removeKey (setNextH m.heap a (headPtr l2)) b) c
          = hfind m.heap c := by
      intro c hc
      have hca : ¬ c = a := by
        rcases hc with hc | hc
        · exact fun he => ha_not0 (he ▸ hc)
        · exact fun he => ha_not2 (he ▸ hc)
      have hcb : ¬ c = b := by
        rcases hc with hc | hc
        · exact fun he => hb_not0 (he ▸ hc)
        · exact fun he => hb_not2 (he ▸ hc)
      rw [hfind_removeKey_ne hcb, hfind_setNextH_ne hca]
    have hfa3 : hfind (removeKey (setNextH m.heap a (headPtr l2)) b) a
        = some ⟨u, headPtr l2⟩ := by
      rw [hfind_removeKey_ne hab_ne]
      exact hfa2
    have hs0 : Seg (removeKey (setNextH m.heap a (headPtr l2)) b)
        ll.headNext (Ptr.node a) l0 :=
      seg_agree (fun c hc => hagree c (Or.inl hc)) hq1
    have hs2 : Seg (removeKey (setNextH m.heap a (headPtr l2)) b)
        (headPtr l2) Ptr.null l2 :=
      seg_agree (fun c hc => hagree c (Or.inr hc)) hrest2
    have hsfull : Seg (removeKey (setNextH m.heap a (headPtr l2)) b)
        ll.headNext Ptr.null (l0 ++ (a, u) :: l2) :=
      seg_append hs0 (Seg.cons hfa3 hs2)
    refine ⟨_, _, heval, ?_, rfl, wfm_remove (wfm_setNext hwf), rfl, ?_⟩
    · have heq2 : (l0 ++ [(a, u)]) ++ l2 = l0 ++ (a, u) :: l2 := by simp
      rw [heq2]
      exact hsfull
    · cases l2 with
      | nil => exact Or.inl rfl
      | cons x l2' =>
        obtain ⟨c, u2⟩ := x
        obtain ⟨_, nxt2, hfc, _⟩ := seg_cons_inv hrest2
        refine Or.inr ⟨c, u2, l2', rfl, ?_⟩
        have : hfind (removeKey (setNextH m.heap a
            (headPtr ((c, u2) :: l2'))) b) c = some ⟨u2, nxt2⟩ := by
          rw [hagree c (Or.inr (by simp [addrs]))]
          exact hfc
        simp [derefIter, this]

theorem wfm_sublist {m : Mem α} {h' : Heap α}
    (hsub : List.Sublist h' m.heap) (hwf : WfM m) :
    WfM (⟨h', m.fresh⟩ : Mem α) := by
  constructor
  · exact List.Nodup.sublist (List.Sublist.map _ hsub) hwf.1
  · intro a ha
    exact hwf.2 a ((List.Sublist.map Prod.fst hsub).subset ha)

theorem clearFuel_spec {l : List (Nat × α)} :
    ∀ (h : Heap α) (p : Ptr) (fuel : Nat), Chain h p l →
    l.length ≤ fuel →
    ∃ h', clearFuel h p fuel = some h' ∧ List.Sublist h' h ∧
      (∀ a, a ∉ addrs l → hfind h' a = hfind h a) := by
  induction l with
  | nil =>
    intro h p fuel hs _
    have hp := seg_nil_inv hs
    subst hp
    exact ⟨h, by simp [clearFuel], List.Sublist.refl h, fun _ _ => rfl⟩
  | cons x rest ih =>
    intro h p fuel hs hfuel
    obtain ⟨b, w⟩ := x
    obtain ⟨hp, nxt, hfb, hrest⟩ := seg_cons_inv hs
    subst hp
    have hnd := chain_nodup hs
    rw [show addrs ((b, w) :: rest) = b :: addrs rest by simp [addrs]]
      at hnd
    have hb_not : b ∉ addrs rest := (List.nodup_cons.mp hnd).1
    cases fuel with
    | zero => simp at hfuel
    | succ fuel' =>
      have hch2 : Chain (removeKey h b) nxt rest :=
        seg_agree (fun c hc =>
          hfind_removeKey_ne (fun he => hb_not (he ▸ hc))) hrest
      obtain ⟨h', heval, hsub, hframe⟩ :=
        ih (removeKey h b) nxt fuel' hch2 (by simpa using hfuel)
      refine ⟨h', ?_, hsub.trans removeKey_sublist, ?_⟩
      · simp only [clearFuel, hfb]
        exact heval
      · intro a ha
        have ha_b : ¬ a = b := fun he => ha (by simp [addrs, he])
        have ha_rest : a ∉ addrs rest := fun hc => ha (by
          simp only [addrs, List.map_cons, List.mem_cons]
          exact Or.inr (by simpa [addrs] using hc))
        rw [hframe a ha_rest, hfind_removeKey_ne ha_b]

theorem clearOp_spec {m : Mem α} {ll : LL} {l : List (Nat × α)}
    (hch : Chain m.heap ll.headNext l) :
    ∃ h', ClearOp m ll = some (⟨h', m.fresh⟩, ⟨Ptr.null, 0⟩) ∧
      List.Sublist h' m.heap ∧
      (∀ a, a ∉ addrs l → hfind h' a = hfind m.heap a) := by
  obtain ⟨h', heval, hsub, hframe⟩ :=
    clearFuel_spec m.heap ll.headNext m.heap.length hch
      (chain_length_le hch)
  refine ⟨h', ?_, hsub, hframe⟩
  simp only [ClearOp, heval, Option.map_some']

/-- Element copy applied along a value list: `some` exactly when every
single copy succeeds. -/
def mapCp (cp : α → Option α) : List α → Option (List α)
  | [] => some []
  | v :: vs =>
    match cp v with
    | none => none
    | some w =>
      match mapCp cp vs with
      | none => none
      | some ws => some (w :: ws)

theorem mapCp_id (vs : List α) :
    mapCp (fun v => some v) vs = some vs := by
  induction vs with
  | nil => rfl
  | cons v t ih => simp [mapCp, ih]

theorem createEAux_spec (cp : α → Option α) (f0 : Nat) :
    ∀ (vs : List α) (m : Mem α) (ll : LL) (prev : Ptr)
      (l0 : List (Nat × α)) (m' : Mem α) (r : Option LL),
    WfM m → Chain m.heap ll.headNext l0 → PosOk prev l0 →
    f0 ≤ m.fresh → (∀ a ∈ addrs l0, f0 ≤ a) →
    createEAux cp m ll prev vs = (m', r) →
    WfM m' ∧ f0 ≤ m'.fresh ∧
    (∀ a, a < f0 → hfind m'.heap a = hfind m.heap a) ∧
    (∀ ll2, r = some ll2 →
      ∃ lnew, Chain m'.heap ll2.headNext (l0 ++ lnew) ∧
        ll2.size_ = ll.size_ + lnew.length ∧
        (∀ a ∈ addrs lnew, f0 ≤ a) ∧
        mapCp cp vs = some (vals lnew)) ∧
    (r = none → mapCp cp vs = none) := by
  intro vs
  induction vs with
  | nil =>
    intro m ll prev l0 m' r hwf hch _hpos hf0 _hl0 heq
    simp only [createEAux] at heq
    injection heq with h1 h2
    subst h1
    subst h2
    refine ⟨hwf, hf0, fun _ _ => rfl, ?_, ?_⟩
    · intro ll2 hll2
      injection hll2 with h3
      subst h3
      exact ⟨[], by simpa using hch, by simp, by simp [addrs],
        by simp [mapCp, vals]⟩
    · intro hc
      exact Option.noConfusion hc
  | cons v rest ih =>
    intro m ll prev l0 m' r hwf hch hpos hf0 hl0 heq
    simp only [createEAux] at heq
    cases hcp : cp v with
    | none =>
      simp only [hcp] at heq
      obtain ⟨h', hclear, hsub, hframe⟩ := clearOp_spec hch
      simp only [hclear] at heq
      injection heq with h1 h2
      subst h1
      subst h2
      refine ⟨wfm_sublist hsub hwf, hf0, ?_, ?_, ?_⟩
      · intro a ha
        refine hframe a (fun hc => ?_)
        have := hl0 a hc
        omega
      · intro ll2 hc
        exact Option.noConfusion hc
      · intro _
        simp [mapCp, hcp]
    | some w =>
      simp only [hcp] at heq
      rcases hpos with ⟨rfl, rfl⟩ | ⟨l0', a, u, rfl, rfl⟩
      · -- the chain is still empty: prev is the sentinel
        have hstep : createStep m ll Ptr.sentinel w =
            some (⟨(m.fresh, ⟨w, Ptr.null⟩) :: m.heap, m.fresh + 1⟩,
                  ⟨Ptr.node m.fresh, ll.size_ + 1⟩,
                  Ptr.node m.fresh) := rfl
        simp only [hstep] at heq
        have hch1 : Chain ((m.fresh, (⟨w, Ptr.null⟩ : Node α)) :: m.heap)
            (Ptr.node m.fresh) [(m.fresh, w)] :=
          Seg.cons hfind_cons_self Seg.nil
        obtain ⟨hwf', hf0', hframe', hsucc', hfail'⟩ :=
          ih ⟨(m.fresh, ⟨w, Ptr.null⟩) :: m.heap, m.fresh + 1⟩
            ⟨Ptr.node m.fresh, ll.size_ + 1⟩ (Ptr.node m.fresh)
            [(m.fresh, w)] m' r (wfm_alloc _ hwf) hch1
            (Or.inr ⟨[], m.fresh, w, by simp, rfl⟩)
            (by show f0 ≤ m.fresh + 1; omega)
            (by
              intro b hb
              simp only [addrs, List.map_cons, List.map_nil,
                List.mem_singleton] at hb
              omega) heq
        refine ⟨hwf', hf0', ?_, ?_, ?_⟩
        · intro b hb
          rw [hframe' b hb]
          exact hfind_cons_ne (by omega)
        · intro ll2 hll2
          obtain ⟨lnew', hch', hsize', hkeys', hmap'⟩ := hsucc' ll2 hll2
          have hsize2 : ll2.size_ = ll.size_ + 1 + lnew'.length := hsize'
          refine ⟨(m.fresh, w) :: lnew', by simpa using hch', ?_, ?_, ?_⟩
          · simp only [List.length_cons]
            omega
          · intro b hb
            simp only [addrs, List.map_cons, List.mem_cons] at hb
            rcases hb with rfl | hb
            · exact hf0
            · exact hkeys' b (by simpa [addrs] using hb)
          · simp [mapCp, hcp, hmap', vals]
        · intro hr
          simp [mapCp, hcp, hfail' hr]
      · -- prev is the last node of the chain built so far
        obtain ⟨q, hq1, hq2⟩ := seg_split hch
        obtain ⟨hqa, nxt, hfa0, htail⟩ := seg_cons_inv hq2
        subst hqa
        have hnxt := seg_nil_inv htail
        subst hnxt
        have ha_lt : a < m.fresh := hwf.2 a (hfind_mem_keys hfa0)
        have hne : ¬ m.fresh = a := by omega
        have hf1 : hfind ((m.fresh, (⟨w, Ptr.null⟩ : Node α)) :: m.heap) a
            = some ⟨u, Ptr.null⟩ := by
          rw [hfind_cons_ne hne]
          exact hfa0
        have hstep : createStep m ll (Ptr.node a) w =
            some (⟨setNextH ((m.fresh, ⟨w, Ptr.null⟩) :: m.heap) a
                     (Ptr.node m.fresh), m.fresh + 1⟩,
                  ⟨ll.headNext, ll.size_ + 1⟩, Ptr.node m.fresh) := by
          simp only [createStep, setNextPtr, hf1, Option.bind_eq_bind,
            Option.some_bind]
        simp only [hstep] at heq
        have hkeys_lt := chain_keys_lt hwf hch
        have hnd := chain_nodup hch
        rw [show addrs (l0' ++ [(a, u)]) = addrs l0' ++ [a]
              by simp [addrs]] at hnd
        rw [List.nodup_append] at hnd
        have ha_not0 : a ∉ addrs l0' := fun hc =>
          hnd.2.2 hc (by simp)
        have hagree : ∀ c ∈ addrs l0',
            hfind (setNextH ((m.fresh, (⟨w, Ptr.null⟩ : Node α))
              :: m.heap) a (Ptr.node m.fresh)) c = hfind m.heap c := by
          intro c hc
          have hclt : c < m.fresh := hkeys_lt c (by
            simp only [addrs_append, List.mem_append]
            exact Or.inl hc)
          rw [hfind_setNextH_ne (fun he => ha_not0 (by rwa [he] at hc)),
            hfind_cons_ne (by omega)]
        have hfa2 : hfind (setNextH ((m.fresh, (⟨w, Ptr.null⟩ : Node α))
            :: m.heap) a (Ptr.node m.fresh)) a
            = some ⟨u, Ptr.node m.fresh⟩ := by
          have := hfind_setNextH_self (Ptr.node m.fresh) hf1
          simpa using this
        have hff : hfind (setNextH ((m.fresh, (⟨w, Ptr.null⟩ : Node α))
            :: m.heap) a (Ptr.node m.fresh)) m.fresh
            = some ⟨w, Ptr.null⟩ := by
          rw [hfind_setNextH_ne hne]
          exact hfind_cons_self
        have hch1 : Chain (setNextH ((m.fresh, (⟨w, Ptr.null⟩ : Node α))
            :: m.heap) a (Ptr.node m.fresh)) ll.headNext
            ((l0' ++ [(a, u)]) ++ [(m.fresh, w)]) := by
          have hs : Seg (setNextH ((m.fresh, (⟨w, Ptr.null⟩ : Node α))
              :: m.heap) a (Ptr.node m.fresh)) ll.headNext Ptr.null
              (l0' ++ (a, u) :: [(m.fresh, w)]) :=
            seg_append (seg_agree hagree hq1)
              (Seg.cons hfa2 (Seg.cons hff Seg.nil))
          have heq2 : (l0' ++ [(a, u)]) ++ [(m.fresh, w)]
              = l0' ++ (a, u) :: [(m.fresh, w)] := by simp
          rw [heq2]
          exact hs
        obtain ⟨hwf', hf0', hframe', hsucc', hfail'⟩ :=
          ih ⟨setNextH ((m.fresh, ⟨w, Ptr.null⟩) :: m.heap) a
                (Ptr.node m.fresh), m.fresh + 1⟩
            ⟨ll.headNext, ll.size_ + 1⟩ (Ptr.node m.fresh)
            ((l0' ++ [(a, u)]) ++ [(m.fresh, w)]) m' r
            (wfm_setNext (wfm_alloc _ hwf)) hch1
            (Or.inr ⟨l0' ++ [(a, u)], m.fresh, w, rfl, rfl⟩)
            (by show f0 ≤ m.fresh + 1; omega)
            (by
              intro b hb
              rw [addrs_append] at hb
              rcases List.mem_append.mp hb with hb | hb
              · exact hl0 b hb
              · simp only [addrs, List.map_cons, List.map_nil,
                  List.mem_singleton] at hb
                omega) heq
        refine ⟨hwf', hf0', ?_, ?_, ?_⟩
        · intro b hb
          rw [hframe' b hb]
          have hba : ¬ b = a := by
            have := hl0 a (by simp [addrs])
            omega
          rw [hfind_setNextH_ne hba, hfind_cons_ne (by omega)]
        · intro ll2 hll2
          obtain ⟨lnew', hch', hsize', hkeys', hmap'⟩ := hsucc' ll2 hll2
          have hsize2 : ll2.size_ = ll.size_ + 1 + lnew'.length := hsize'
          refine ⟨(m.fresh, w) :: lnew', ?_, ?_, ?_, ?_⟩
          · have heq3 : ((l0' ++ [(a, u)]) ++ [(m.fresh, w)]) ++ lnew'
                = (l0' ++ [(a, u)]) ++ (m.fresh, w) :: lnew' := by simp
            rwa [heq3] at hch'
          · simp only [List.length_cons]
            omega
          · intro b hb
            simp only [addrs, List.map_cons, List.mem_cons] at hb
            rcases hb with rfl | hb
            · exact hf0
            · exact hkeys' b (by simpa [addrs] using hb)
          · simp [mapCp, hcp, hmap', vals]
        · intro hr
          simp [mapCp, hcp, hfail' hr]

theorem toListAux_chain {l : List (Nat × α)} :
    ∀ (h : Heap α) (p : Ptr) (fuel : Nat), Chain h p l →
    l.length ≤ fuel → toListAux h p fuel = some (vals l) := by
  induction l with
  | nil =>
    intro h p fuel hs _
    have hp := seg_nil_inv hs
    subst hp
    simp [toListAux, vals]
  | cons x rest ih =>
    obtain ⟨b, w⟩ := x
    intro h p fuel hs hfuel
    obtain ⟨hp, nxt, hfb, hrest⟩ := seg_cons_inv hs
    subst hp
    cases fuel with
    | zero => simp at hfuel
    | succ fuel' =>
      simp only [toListAux, hfb,
        ih h nxt fuel' hrest (by simpa using hfuel)]
      simp [vals]

theorem toListF_chain {m : Mem α} {ll : LL} {l : List (Nat × α)}
    (hch : Chain m.heap ll.headNext l) : toListF m ll = some (vals l) :=
  toListAux_chain m.heap ll.headNext _ hch
    (le_trans (chain_length_le hch) (by omega))

theorem copyCtorE_spec (cp : α → Option α) {m : Mem α} {src : LL}
    {lS : List (Nat × α)} (hwf : WfM m)
    (hch : Chain m.heap src.headNext lS) :
    ∀ (m' : Mem α) (r : Option LL), CopyCtorE cp m src = (m', r) →
    WfM m' ∧ m.fresh ≤ m'.fresh ∧
    (∀ a, a < m.fresh → hfind m'.heap a = hfind m.heap a) ∧
    (∀ cpll, r = some cpll →
      ∃ lnew, Chain m'.heap cpll.headNext lnew ∧
        cpll.size_ = lnew.length ∧ (∀ a ∈ addrs lnew, m.fresh ≤ a) ∧
        mapCp cp (vals lS) = some (vals lnew)) ∧
    (r = none → mapCp cp (vals lS) = none) := by
  intro m' r heq
  rw [show CopyCtorE cp m src = initList cp m (vals lS) by
    simp only [CopyCtorE, toListF_chain hch]] at heq
  have hmaster := createEAux_spec cp m.fresh (vals lS) m emptyLL
    Ptr.sentinel [] m' r hwf Seg.nil (Or.inl ⟨rfl, rfl⟩) le_rfl
    (by simp [addrs]) heq
  obtain ⟨hwf', hf', hframe', hsucc', hfail'⟩ := hmaster
  refine ⟨hwf', hf', hframe', ?_, hfail'⟩
  intro cpll hr
  obtain ⟨lnew, hch', hsize', hkeys', hmap'⟩ := hsucc' cpll hr
  have hsize2 : cpll.size_ = 0 + lnew.length := hsize'
  exact ⟨lnew, by simpa using hch', by omega, hkeys', hmap'⟩

theorem seg_not_node {h : Heap α} {p q : Ptr} {l : List (Nat × α)}
    (hs : Seg h p q l) (hp : ∀ a, ¬ p = Ptr.node a) : l = [] := by
  cases hs with
  | nil => rfl
  | cons hf hrest => exact absurd rfl (hp _)

theorem seg_null_nil {h : Heap α} {q : Ptr} {l : List (Nat × α)}
    (hs : Seg h Ptr.null q l) : l = [] :=
  seg_not_node hs (fun _ hc => Ptr.noConfusion hc)

theorem stdLexAux_chain (lt : α → α → Bool) {h : Heap α} :
    ∀ {la lb : List (Nat × α)} {pa pb : Ptr} {fuel : Nat},
    Chain h pa la → Chain h pb lb → la.length ≤ fuel →
    stdLexAux lt h pa pb fuel = some (lexLt lt (vals la) (vals lb)) := by
  intro la
  induction la with
  | nil =>
    intro lb pa pb fuel ha hb _
    have hpa := seg_nil_inv ha
    subst hpa
    cases lb with
    | nil =>
      have hpb := seg_nil_inv hb
      subst hpb
      simp [stdLexAux, lexLt, vals]
    | cons y tail =>
      obtain ⟨c, u⟩ := y
      obtain ⟨hpb, _, _, _⟩ := seg_cons_inv hb
      subst hpb
      simp [stdLexAux, lexLt, vals]
  | cons x resta ih =>
    obtain ⟨b, w⟩ := x
    intro lb pa pb fuel ha hb hfuel
    obtain ⟨hpa, nxta, hfb, hresta⟩ := seg_cons_inv ha
    subst hpa
    cases lb with
    | nil =>
      have hpb := seg_nil_inv hb
      subst hpb
      simp [stdLexAux, lexLt, vals]
    | cons y tailb =>
      obtain ⟨c, u⟩ := y
      obtain ⟨hpb, nxtb, hfc, hrestb⟩ := seg_cons_inv hb
      subst hpb
      cases fuel with
      | zero => simp at hfuel
      | succ fuel' =>
        simp only [stdLexAux, hfb, hfc]
        by_cases h1 : lt w u
        · simp [h1, lexLt, vals]
        · by_cases h2 : lt u w
          · simp [h1, h2, lexLt, vals]
          · rw [ih hresta hrestb (by simpa using hfuel)]
            simp [h1, h2, lexLt, vals]

/-- Sequence of `PushFront` calls, in call order. -/
def pushFrontAll (m : Mem α) (ll : LL) (vs : List α) : Mem α × LL :=
  vs.foldl (fun p v => PushFront p.1 p.2 v) (m, ll)

theorem pushFrontAll_spec :
    ∀ (vs : List α) (m : Mem α) (ll : LL) (l : List (Nat × α)),
    WfM m → Chain m.heap ll.headNext l →
    WfM (pushFrontAll m ll vs).1 ∧
    (∃ lnew, Chain (pushFrontAll m ll vs).1.heap
        (pushFrontAll m ll vs).2.headNext lnew ∧
      vals lnew = vs.reverse ++ vals l) ∧
    (pushFrontAll m ll vs).2.size_ = ll.size_ + vs.length := by
  intro vs
  induction vs with
  | nil =>
    intro m ll l hwf hch
    exact ⟨hwf, ⟨l, hch, by simp⟩, by simp [pushFrontAll]⟩
  | cons v rest ih =>
    intro m ll l hwf hch
    obtain ⟨hwf1, hch1, hsize1, _, _⟩ := pushFront_spec v hwf hch
    have hstep : pushFrontAll m ll (v :: rest)
        = pushFrontAll (PushFront m ll v).1 (PushFront m ll v).2 rest := by
      simp [pushFrontAll, List.foldl_cons]
    obtain ⟨hwf2, ⟨lnew, hch2, hvals2⟩, hsize2⟩ :=
      ih (PushFront m ll v).1 (PushFront m ll v).2 _ hwf1 hch1
    rw [hstep]
    refine ⟨hwf2, ⟨lnew, hch2, ?_⟩, ?_⟩
    · rw [hvals2]
      simp [vals]
    · rw [hsize2, hsize1]
      simp only [List.length_cons]
      omega

/-- C1: evaluation of the code at the failing input.  The claim says
that the free equality operator returns true only when both lists have
the same number of elements, and in particular that a strict prefix
such as the list 1,2 compares unequal to 1,2,3.  The implementation is
`std::equal(lhs.begin(), lhs.end(), rhs.begin())`, the three iterator
overload, which never examines the part of the right list beyond the
length of the left one: building the two lists and evaluating the
operator yields `true` although the sizes are 2 and 3. -/
theorem C1_eq_ignores_extra_tail :
    ∃ (m1 : Mem Nat) (a : LL) (m2 : Mem Nat) (b : LL),
      initList (fun v => some v) (emptyMem Nat) [1, 2] = (m1, some a) ∧
      initList (fun v => some v) m1 [1, 2, 3] = (m2, some b) ∧
      toListF m2 a = some [1, 2] ∧
      toListF m2 b = some [1, 2, 3] ∧
      GetSize a = 2 ∧ GetSize b = 3 ∧
      listEqOp m2 a b = some true :=
  ⟨_, _, _, _, rfl, rfl, rfl, rfl, rfl, rfl, rfl⟩

/-- C2 counterexample: the claim states that comparing a default
constructed iterator with another default constructed one, or with the
end iterator of any list, yields no match (`operator==` false,
`operator!=` true).  Both hold the null node pointer, and the
comparison is raw pointer equality, so `operator==` in fact returns
`true` and `operator!=` returns `false`. -/
theorem C2_default_iter_cex :
    iterEq iterDefault iterDefault = true ∧
    iterNe iterDefault iterDefault = false ∧
    iterEq iterDefault (endIter emptyLL) = true :=
  ⟨rfl, rfl, rfl⟩

/-- C2 amended: a default constructed iterator holds a null node
pointer, exactly like the end iterator of every list, so comparing a
default constructed iterator with another default constructed one or
with the end iterator of any list yields a match: `operator==` returns
true and `operator!=` returns false. -/
theorem C2_default_iter_amended (ll : LL) :
    iterEq iterDefault iterDefault = true ∧
    iterNe iterDefault iterDefault = false ∧
    iterEq iterDefault (endIter ll) = true ∧
    iterNe iterDefault (endIter ll) = false ∧
    iterEq (endIter ll) iterDefault = true :=
  ⟨rfl, rfl, rfl, rfl, rfl⟩

/-- C4: for every list and every position referencing a real node or
the sentinel, `InsertAfter(pos, value)` creates one new node holding
the value linked immediately after the pos node, relinks the pos node
to it, increments the size by one, and returns an iterator referencing
the newly inserted node, which dereferences to the value. -/
theorem C4_insertAfter {α : Type} (m : Mem α) (ll : LL) (pos : Ptr)
    (v : α) (l1 l2 : List (Nat × α)) (hwf : WfM m)
    (hch : Chain m.heap ll.headNext (l1 ++ l2)) (hpos : PosOk pos l1) :
    ∃ m' ll', InsertAfter m ll pos v = some (m', ll', Ptr.node m.fresh) ∧
      Chain m'.heap ll'.headNext (l1 ++ (m.fresh, v) :: l2) ∧
      GetSize ll' = GetSize ll + 1 ∧
      derefIter m' (Ptr.node m.fresh) = some v ∧
      getNextPtr m' ll' pos = some (Ptr.node m.fresh) := by
  obtain ⟨m', ll', heval, hch', hsize, _, _, hderef, hnext⟩ :=
    insertAfter_spec v hwf hch hpos
  exact ⟨m', ll', heval, hch', hsize, hderef, hnext⟩

/-- Memory holding the two element list with values 10 and 20. -/
def c4Mem : Mem Nat := ⟨[(0, ⟨10, Ptr.node 1⟩), (1, ⟨20, Ptr.null⟩)], 2⟩

/-- List object over `c4Mem`: head points at node 0, size 2. -/
def c4LL : LL := ⟨Ptr.node 0, 2⟩

/-- C4 witness: instantiation of the insert after theorem on the list
10,20 at the before begin position with value 5. -/
theorem C4_insertAfter_witness :
    WfM c4Mem ∧
    Chain c4Mem.heap c4LL.headNext ([] ++ [(0, 10), (1, 20)]) ∧
    PosOk beforeBegin ([] : List (Nat × Nat)) ∧
    (∃ m' ll',
      InsertAfter c4Mem c4LL beforeBegin 5
        = some (m', ll', Ptr.node c4Mem.fresh) ∧
      Chain m'.heap ll'.headNext
        ([] ++ (c4Mem.fresh, 5) :: [(0, 10), (1, 20)]) ∧
      GetSize ll' = GetSize c4LL + 1 ∧
      derefIter m' (Ptr.node c4Mem.fresh) = some 5 ∧
      getNextPtr m' ll' beforeBegin = some (Ptr.node c4Mem.fresh)) := by
  have hwf : WfM c4Mem := ⟨by decide, by decide⟩
  have hch : Chain c4Mem.heap c4LL.headNext ([] ++ [(0, 10), (1, 20)]) :=
    Seg.cons rfl (Seg.cons rfl Seg.nil)
  have hpos : PosOk beforeBegin ([] : List (Nat × Nat)) :=
    Or.inl ⟨rfl, rfl⟩
  exact ⟨hwf, hch, hpos,
    C4_insertAfter c4Mem c4LL beforeBegin 5 _ _ hwf hch hpos⟩

/-- C5: for every list and every position whose node has a real
following node, `EraseAfter(pos)` unlinks and destroys exactly that
node, decrements the size by one, and returns an iterator referencing
the node that followed the removed one, possibly the end iterator. -/
theorem C5_eraseAfter {α : Type} (m : Mem α) (ll : LL) (pos : Ptr)
    (l1 l2 : List (Nat × α)) (b : Nat) (w : α) (hwf : WfM m)
    (hch : Chain m.heap ll.headNext (l1 ++ (b, w) :: l2))
    (hpos : PosOk pos l1) :
    ∃ m' ll', EraseAfter m ll pos = some (m', ll', headPtr l2) ∧
      Chain m'.heap ll'.headNext (l1 ++ l2) ∧
      GetSize ll' = GetSize ll - 1 ∧
      (l2 = [] ∧ headPtr l2 = endIter ll' ∨
       ∃ c u l2', l2 = (c, u) :: l2' ∧ headPtr l2 = Ptr.node c ∧
         derefIter m' (Ptr.node c) = some u) := by
  obtain ⟨m', ll', heval, hch', hsize, _, _, hret⟩ :=
    eraseAfter_spec hwf hch hpos
  refine ⟨m', ll', heval, hch', hsize, ?_⟩
  rcases hret with rfl | ⟨c, u, l2', rfl, hder⟩
  · exact Or.inl ⟨rfl, rfl⟩
  · exact Or.inr ⟨c, u, l2', rfl, rfl, hder⟩

/-- Memory holding the three element list with values 1, 2, 3. -/
def c5Mem : Mem Nat :=
  ⟨[(0, ⟨1, Ptr.node 1⟩), (1, ⟨2, Ptr.node 2⟩), (2, ⟨3, Ptr.null⟩)], 3⟩

/-- List object over `c5Mem`: head points at node 0, size 3. -/
def c5LL : LL := ⟨Ptr.node 0, 3⟩

/-- C5 witness: instantiation of the erase after theorem on the list
1,2,3 at the position of value 1: the node holding 2 is removed and the
returned iterator dereferences to 3. -/
theorem C5_eraseAfter_witness :
    WfM c5Mem ∧
    Chain c5Mem.heap c5LL.headNext ([(0, 1)] ++ (1, 2) :: [(2, 3)]) ∧
    PosOk (Ptr.node 0) [((0 : Nat), (1 : Nat))] ∧
    (∃ m' ll',
      EraseAfter c5Mem c5LL (Ptr.node 0)
        = some (m', ll', headPtr [(2, 3)]) ∧
      Chain m'.heap ll'.headNext ([(0, 1)] ++ [(2, 3)]) ∧
      GetSize ll' = GetSize c5LL - 1 ∧
      ([(2, 3)] = ([] : List (Nat × Nat)) ∧
         headPtr [((2 : Nat), (3 : Nat))] = endIter ll' ∨
       ∃ c u l2', [(2, 3)] = (c, u) :: l2' ∧
         headPtr [((2 : Nat), (3 : Nat))] = Ptr.node c ∧
         derefIter m' (Ptr.node c) = some u)) := by
  have hwf : WfM c5Mem := ⟨by decide, by decide⟩
  have hch : Chain c5Mem.heap c5LL.headNext
      ([(0, 1)] ++ (1, 2) :: [(2, 3)]) :=
    Seg.cons rfl (Seg.cons rfl (Seg.cons rfl Seg.nil))
  have hpos : PosOk (Ptr.node 0) [((0 : Nat), (1 : Nat))] :=
    Or.inr ⟨[], 0, 1, rfl, rfl⟩
  exact ⟨hwf, hch, hpos,
    C5_eraseAfter c5Mem c5LL (Ptr.node 0) _ _ _ _ hwf hch hpos⟩

/-- C10: inserting a value after a valid position and then erasing
after the same position restores the original element sequence and the
original size. -/
theorem C10_insert_erase_roundtrip {α : Type} (m : Mem α) (ll : LL)
    (pos : Ptr) (v : α) (l1 l2 : List (Nat × α)) (hwf : WfM m)
    (hch : Chain m.heap ll.headNext (l1 ++ l2)) (hpos : PosOk pos l1) :
    ∃ m1 ll1 ret m2 ll2 ret2,
      InsertAfter m ll pos v = some (m1, ll1, ret) ∧
      EraseAfter m1 ll1 pos = some (m2, ll2, ret2) ∧
      Chain m2.heap ll2.headNext (l1 ++ l2) ∧
      toListF m2 ll2 = toListF m ll ∧
      GetSize ll2 = GetSize ll := by
  obtain ⟨m1, ll1, heval1, hch1, hsize1, hwf1, _, _, _⟩ :=
    insertAfter_spec v hwf hch hpos
  obtain ⟨m2, ll2, heval2, hch2, hsize2, _, _, _⟩ :=
    eraseAfter_spec hwf1 hch1 hpos
  refine ⟨m1, ll1, _, m2, ll2, _, heval1, heval2, hch2, ?_, ?_⟩
  · rw [toListF_chain hch2, toListF_chain hch]
  · show ll2.size_ = ll.size_
    omega

/-- C10 witness: instantiation of the round trip theorem on the list
10,20 with value 5 inserted and erased after the before begin
position. -/
theorem C10_insert_erase_roundtrip_witness :
    WfM c4Mem ∧
    Chain c4Mem.heap c4LL.headNext ([] ++ [(0, 10), (1, 20)]) ∧
    PosOk beforeBegin ([] : List (Nat × Nat)) ∧
    (∃ m1 ll1 ret m2 ll2 ret2,
      InsertAfter c4Mem c4LL beforeBegin 5 = some (m1, ll1, ret) ∧
      EraseAfter m1 ll1 beforeBegin = some (m2, ll2, ret2) ∧
      Chain m2.heap ll2.headNext ([] ++ [(0, 10), (1, 20)]) ∧
      toListF m2 ll2 = toListF c4Mem c4LL ∧
      GetSize ll2 = GetSize c4LL) := by
  have hwf : WfM c4Mem := ⟨by decide, by decide⟩
  have hch : Chain c4Mem.heap c4LL.headNext ([] ++ [(0, 10), (1, 20)]) :=
    Seg.cons rfl (Seg.cons rfl Seg.nil)
  have hpos : PosOk beforeBegin ([] : List (Nat × Nat)) :=
    Or.inl ⟨rfl, rfl⟩
  exact ⟨hwf, hch, hpos,
    C10_insert_erase_roundtrip c4Mem c4LL beforeBegin 5 _ _ hwf hch hpos⟩

/-- C8: for every sequence of values pushed in call order via
`PushFront` onto an initially empty list, iterating the list front to
back yields the values in reverse push order, and `GetSize` returns
their number. -/
theorem C8_pushFront_reversed {α : Type} (m : Mem α) (vs : List α)
    (hwf : WfM m) :
    ∃ lnew, Chain (pushFrontAll m emptyLL vs).1.heap
        (pushFrontAll m emptyLL vs).2.headNext lnew ∧
      vals lnew = vs.reverse ∧
      toListF (pushFrontAll m emptyLL vs).1
        (pushFrontAll m emptyLL vs).2 = some vs.reverse ∧
      GetSize (pushFrontAll m emptyLL vs).2 = vs.length := by
  obtain ⟨_, ⟨lnew, hch', hvals⟩, hsize⟩ :=
    pushFrontAll_spec vs m emptyLL [] hwf Seg.nil
  have hvals' : vals lnew = vs.reverse := by simpa [vals] using hvals
  have hsize' : (pushFrontAll m emptyLL vs).2.size_ = 0 + vs.length :=
    hsize
  refine ⟨lnew, hch', hvals', ?_, ?_⟩
  · rw [toListF_chain hch', hvals']
  · show (pushFrontAll m emptyLL vs).2.size_ = vs.length
    omega

/-- C8 witness: pushing 1, 2, 3 onto an empty list yields the element
sequence 3, 2, 1 and size 3. -/
theorem C8_pushFront_reversed_witness :
    WfM (emptyMem Nat) ∧
    (∃ lnew, Chain (pushFrontAll (emptyMem Nat) emptyLL [1, 2, 3]).1.heap
        (pushFrontAll (emptyMem Nat) emptyLL [1, 2, 3]).2.headNext lnew ∧
      vals lnew = [3, 2, 1] ∧
      toListF (pushFrontAll (emptyMem Nat) emptyLL [1, 2, 3]).1
        (pushFrontAll (emptyMem Nat) emptyLL [1, 2, 3]).2
        = some [3, 2, 1] ∧
      GetSize (pushFrontAll (emptyMem Nat) emptyLL [1, 2, 3]).2 = 3) := by
  have hwf : WfM (emptyMem Nat) := ⟨by decide, by decide⟩
  exact ⟨hwf, C8_pushFront_reversed (emptyMem Nat) [1, 2, 3] hwf⟩

/-- C7: copy construction produces a fully independent chain of equal
content: after copying a list and pushing a value onto the copy, the
original element sequence and size are unchanged. -/
theorem C7_copy_independent {α : Type} (m : Mem α) (src : LL) (v : α)
    (lS : List (Nat × α)) (hwf : WfM m)
    (hch : Chain m.heap src.headNext lS) :
    ∃ m1 cpy, CopyCtorE (fun x => some x) m src = (m1, some cpy) ∧
      (∃ lC, Chain m1.heap cpy.headNext lC ∧ vals lC = vals lS ∧
        GetSize cpy = lS.length) ∧
      Chain (PushFront m1 cpy v).1.heap src.headNext lS ∧
      toListF (PushFront m1 cpy v).1 src = toListF m src := by
  rcases hcc : CopyCtorE (fun x => some x) m src with ⟨m1, r⟩
  obtain ⟨hwf1, hfr1, hframe1, hsucc1, hfail1⟩ :=
    copyCtorE_spec _ hwf hch m1 r hcc
  cases r with
  | none =>
    have hc := hfail1 rfl
    rw [mapCp_id] at hc
    exact absurd hc (by simp)
  | some cpy =>
    obtain ⟨lnew, hchC, hsizeC, hkeysC, hmapC⟩ := hsucc1 cpy rfl
    rw [mapCp_id] at hmapC
    have hvalsC : vals lnew = vals lS := (Option.some.inj hmapC).symm
    have hsrc_lt : ∀ a ∈ addrs lS, a < m.fresh := chain_keys_lt hwf hch
    have hch_src1 : Chain m1.heap src.headNext lS :=
      seg_agree (fun a ha => hframe1 a (hsrc_lt a ha)) hch
    obtain ⟨_, _, _, _, hframe2⟩ := pushFront_spec v hwf1 hchC
    have hch_src2 : Chain (PushFront m1 cpy v).1.heap src.headNext lS :=
      seg_agree (fun a ha => hframe2 a (by
        have := hsrc_lt a ha
        omega)) hch_src1
    refine ⟨m1, cpy, rfl, ⟨lnew, hchC, hvalsC, ?_⟩, hch_src2, ?_⟩
    · have h1 : (vals lnew).length = (vals lS).length := by rw [hvalsC]
      have h2 : lnew.length = lS.length := by simpa [vals] using h1
      show cpy.size_ = lS.length
      omega
    · rw [toListF_chain hch_src2, toListF_chain hch]

/-- C7 witness: instantiation on the list 1,2,3 with value 9 pushed
onto the copy. -/
theorem C7_copy_independent_witness :
    WfM c5Mem ∧
    Chain c5Mem.heap c5LL.headNext [(0, 1), (1, 2), (2, 3)] ∧
    (∃ m1 cpy, CopyCtorE (fun x => some x) c5Mem c5LL = (m1, some cpy) ∧
      (∃ lC, Chain m1.heap cpy.headNext lC ∧
        vals lC = vals [(0, 1), (1, 2), (2, 3)] ∧
        GetSize cpy = [((0 : Nat), (1 : Nat)), (1, 2), (2, 3)].length) ∧
      Chain (PushFront m1 cpy 9).1.heap c5LL.headNext
        [(0, 1), (1, 2), (2, 3)] ∧
      toListF (PushFront m1 cpy 9).1 c5LL = toListF c5Mem c5LL) := by
  have hwf : WfM c5Mem := ⟨by decide, by decide⟩
  have hch : Chain c5Mem.heap c5LL.headNext [(0, 1), (1, 2), (2, 3)] :=
    Seg.cons rfl (Seg.cons rfl (Seg.cons rfl Seg.nil))
  exact ⟨hwf, hch, C7_copy_independent c5Mem c5LL 9 _ hwf hch⟩

/-- C6: copy assignment builds a full independent copy of the right
hand side and swaps it in.  If the element copy throws, the target list
is completely unmodified; on success (in particular for self
assignment and assignment from an empty list) the target holds the
element values and size the right hand side had at the start. -/
theorem C6_assign_strong {α : Type} (cp : α → Option α) (m : Mem α)
    (lhs rhs : LL) (lL lR : List (Nat × α)) (hwf : WfM m)
    (hL : Chain m.heap lhs.headNext lL)
    (hR : Chain m.heap rhs.headNext lR)
    (hsR : lR.length = GetSize rhs) :
    (∀ m', assignE cp m lhs rhs = (m', none) →
      Chain m'.heap lhs.headNext lL ∧ toListF m' lhs = toListF m lhs) ∧
    (∀ m' lhs', assignE (fun x => some x) m lhs rhs = (m', some lhs') →
      ∃ lC, Chain m'.heap lhs'.headNext lC ∧ vals lC = vals lR ∧
        GetSize lhs' = GetSize rhs ∧ WfM m') := by
  have hlhs_lt : ∀ a ∈ addrs lL, a < m.fresh := chain_keys_lt hwf hL
  constructor
  · intro m' heq
    rcases hcc : CopyCtorE cp m rhs with ⟨m1, rc⟩
    obtain ⟨hwf1, hfr1, hframe1, _, _⟩ :=
      copyCtorE_spec cp hwf hR m1 rc hcc
    have hch_l1 : Chain m1.heap lhs.headNext lL :=
      seg_agree (fun a ha => hframe1 a (hlhs_lt a ha)) hL
    cases rc with
    | none =>
      simp only [assignE, hcc] at heq
      injection heq with h1 h2
      subst h1
      exact ⟨hch_l1, by rw [toListF_chain hch_l1, toListF_chain hL]⟩
    | some cpll =>
      obtain ⟨h', hclear, _, _⟩ := clearOp_spec hch_l1
      simp only [assignE, hcc, hclear] at heq
      injection heq with h1 h2
      exact Option.noConfusion h2
  · intro m' lhs' heq
    rcases hcc : CopyCtorE (fun x => some x) m rhs with ⟨m1, rc⟩
    obtain ⟨hwf1, hfr1, hframe1, hsucc1, hfail1⟩ :=
      copyCtorE_spec _ hwf hR m1 rc hcc
    have hch_l1 : Chain m1.heap lhs.headNext lL :=
      seg_agree (fun a ha => hframe1 a (hlhs_lt a ha)) hL
    cases rc with
    | none =>
      have hc := hfail1 rfl
      rw [mapCp_id] at hc
      exact absurd hc (by simp)
    | some cpll =>
      obtain ⟨lnew, hchC, hsizeC, hkeysC, hmapC⟩ := hsucc1 cpll rfl
      rw [mapCp_id] at hmapC
      have hvals : vals lR = vals lnew := Option.some.inj hmapC
      obtain ⟨h', hclear, hsub, hframe2⟩ := clearOp_spec hch_l1
      simp only [assignE, hcc, hclear] at heq
      injection heq with h1 h2
      subst h1
      injection h2 with h3
      subst h3
      have hchC' : Chain (⟨h', m1.fresh⟩ : Mem α).heap cpll.headNext
          lnew := by
        refine seg_agree ?_ hchC
        intro a ha
        refine hframe2 a ?_
        intro hc
        have h4 := hkeysC a ha
        have h5 := hlhs_lt a hc
        omega
      refine ⟨lnew, hchC', hvals.symm, ?_, wfm_sublist hsub hwf1⟩
      have hl1 : (vals lR).length = (vals lnew).length := by rw [hvals]
      have hl2 : lR.length = lnew.length := by simpa [vals] using hl1
      have hsR' : lR.length = rhs.size_ := hsR
      show cpll.size_ = rhs.size_
      omega

/-- Memory holding two one element lists with values 7 and 8. -/
def c6Mem : Mem Nat := ⟨[(0, ⟨7, Ptr.null⟩), (1, ⟨8, Ptr.null⟩)], 2⟩

/-- List object over `c6Mem` holding value 7. -/
def c6Lhs : LL := ⟨Ptr.node 0, 1⟩

/-- List object over `c6Mem` holding value 8. -/
def c6Rhs : LL := ⟨Ptr.node 1, 1⟩

/-- C6 witness: instantiation of the assignment theorem on the one
element lists 7 and 8, with the always throwing element copy in the
failure clause. -/
theorem C6_assign_strong_witness :
    WfM c6Mem ∧
    Chain c6Mem.heap c6Lhs.headNext [(0, 7)] ∧
    Chain c6Mem.heap c6Rhs.headNext [(1, 8)] ∧
    [((1 : Nat), (8 : Nat))].length = GetSize c6Rhs ∧
    ((∀ m', assignE (fun _ => none) c6Mem c6Lhs c6Rhs = (m', none) →
      Chain m'.heap c6Lhs.headNext [(0, 7)] ∧
      toListF m' c6Lhs = toListF c6Mem c6Lhs) ∧
    (∀ m' lhs', assignE (fun x => some x) c6Mem c6Lhs c6Rhs
        = (m', some lhs') →
      ∃ lC, Chain m'.heap lhs'.headNext lC ∧
        vals lC = vals [(1, 8)] ∧
        GetSize lhs' = GetSize c6Rhs ∧ WfM m')) := by
  have hwf : WfM c6Mem := ⟨by decide, by decide⟩
  have hl : Chain c6Mem.heap c6Lhs.headNext [(0, 7)] :=
    Seg.cons rfl Seg.nil
  have hr : Chain c6Mem.heap c6Rhs.headNext [(1, 8)] :=
    Seg.cons rfl Seg.nil
  exact ⟨hwf, hl, hr, rfl,
    C6_assign_strong (fun _ => none) c6Mem c6Lhs c6Rhs _ _ hwf hl hr rfl⟩

/-- Ordering of natural numbers, standing for the `operator<` of the
element type. -/
def ltNat (x y : Nat) : Bool := decide (x < y)

/-- Memory holding the lists 1,2 (nodes 0 and 1) and 1,2,3 (nodes 2,
3, 4). -/
def c9Mem : Mem Nat :=
  ⟨[(0, ⟨1, Ptr.node 1⟩), (1, ⟨2, Ptr.null⟩), (2, ⟨1, Ptr.node 3⟩),
    (3, ⟨2, Ptr.node 4⟩), (4, ⟨3, Ptr.null⟩)], 5⟩

/-- List object over `c9Mem` holding 1,2. -/
def c9A : LL := ⟨Ptr.node 0, 2⟩

/-- List object over `c9Mem` holding 1,2,3. -/
def c9B : LL := ⟨Ptr.node 2, 3⟩

/-- Memory holding the lists 2 (node 0) and 1,9 (nodes 1 and 2). -/
def c9Mem2 : Mem Nat :=
  ⟨[(0, ⟨2, Ptr.null⟩), (1, ⟨1, Ptr.node 2⟩), (2, ⟨9, Ptr.null⟩)], 3⟩

/-- List object over `c9Mem2` holding 2. -/
def c9C : LL := ⟨Ptr.node 0, 1⟩

/-- List object over `c9Mem2` holding 1,9. -/
def c9D : LL := ⟨Ptr.node 1, 2⟩

/-- C9: the free `operator<` performs lexicographic comparison of the
element sequences using the element ordering, and `<=`, `>`, `>=` are
the standard derivations from `<`; in particular the list 1,2 compares
less than 1,2,3 and the list 2 compares greater than 1,9. -/
theorem C9_lex_ordering :
    (∀ (α : Type) (lt : α → α → Bool) (m : Mem α) (A B : LL)
       (la lb : List (Nat × α)),
      Chain m.heap A.headNext la → Chain m.heap B.headNext lb →
      listLtOp lt m A B = some (lexLt lt (vals la) (vals lb))) ∧
    (∀ (α : Type) (lt : α → α → Bool) (m : Mem α) (A B : LL),
      listLeOp lt m A B = (listLtOp lt m B A).map (fun x => !x)) ∧
    (∀ (α : Type) (lt : α → α → Bool) (m : Mem α) (A B : LL),
      listGtOp lt m A B = listLtOp lt m B A) ∧
    (∀ (α : Type) (lt : α → α → Bool) (m : Mem α) (A B : LL),
      listGeOp lt m A B = (listLtOp lt m A B).map (fun x => !x)) ∧
    listLtOp ltNat c9Mem c9A c9B = some true ∧
    listGtOp ltNat c9Mem2 c9C c9D = some true := by
  refine ⟨?_, ?_, ?_, ?_, rfl, rfl⟩
  · intro α lt m A B la lb ha hb
    exact stdLexAux_chain lt ha hb
      (le_trans (chain_length_le ha) (by omega))
  · intro α lt m A B
    rfl
  · intro α lt m A B
    rfl
  · intro α lt m A B
    rfl

/-- C9 witness: instantiation of the lexicographic clause on the lists
1,2 and 1,2,3. -/
theorem C9_lex_ordering_witness :
    Chain c9Mem.heap c9A.headNext [(0, 1), (1, 2)] ∧
    Chain c9Mem.heap c9B.headNext [(2, 1), (3, 2), (4, 3)] ∧
    listLtOp ltNat c9Mem c9A c9B
      = some (lexLt ltNat (vals [(0, 1), (1, 2)])
          (vals [(2, 1), (3, 2), (4, 3)])) := by
  have h1 : Chain c9Mem.heap c9A.headNext [(0, 1), (1, 2)] :=
    Seg.cons rfl (Seg.cons rfl Seg.nil)
  have h2 : Chain c9Mem.heap c9B.headNext [(2, 1), (3, 2), (4, 3)] :=
    Seg.cons rfl (Seg.cons rfl (Seg.cons rfl Seg.nil))
  exact ⟨h1, h2, C9_lex_ordering.1 Nat ltNat c9Mem c9A c9B _ _ h1 h2⟩

/-- C3 counterexample: the claim states that every public operation,
`Create` included, preserves the invariant.  `Create` is public and,
called on a non empty list (reachable via `PushFront` on a default
constructed list), it overwrites the head link and adds the new node
count to `size_`: the resulting state has `size_ = 2` but only one
reachable node, violating the invariant. -/
theorem C3_create_nonempty_cex :
    PushFront (emptyMem Nat) emptyLL 1
      = (⟨[(0, ⟨1, Ptr.null⟩)], 1⟩, ⟨Ptr.node 0, 1⟩) ∧
    CreateOp (fun v => some v) ⟨[(0, ⟨1, Ptr.null⟩)], 1⟩ ⟨Ptr.node 0, 1⟩
        [2]
      = (⟨[(1, ⟨2, Ptr.null⟩), (0, ⟨1, Ptr.null⟩)], 2⟩,
         some ⟨Ptr.node 1, 2⟩) ∧
    GetSize (⟨Ptr.node 1, 2⟩ : LL) = 2 ∧
    toListF (⟨[(1, ⟨2, Ptr.null⟩), (0, ⟨1, Ptr.null⟩)], 2⟩ : Mem Nat)
      ⟨Ptr.node 1, 2⟩ = some [2] ∧
    ¬ Invariant (⟨[(1, ⟨2, Ptr.null⟩), (0, ⟨1, Ptr.null⟩)], 2⟩ : Mem Nat)
      ⟨Ptr.node 1, 2⟩ := by
  refine ⟨rfl, rfl, rfl, rfl, ?_⟩
  rintro ⟨l, hch, hlen, -⟩
  have hchain : Chain [((1 : Nat), (⟨2, Ptr.null⟩ : Node Nat)),
      (0, ⟨1, Ptr.null⟩)] (Ptr.node 1) [(1, 2)] :=
    Seg.cons rfl Seg.nil
  have hdet := chain_determ hch hchain
  rw [hdet] at hlen
  simp at hlen

/-- C3 amended: for every list state reachable through the public
operations the invariant holds (`size_` equals the number of reachable
real nodes, the chain is acyclic, the last real node has a null link),
and every public operation preserves well formedness — with the
amendment that `Create` requires its documented precondition of an
empty target list: called on a non empty list it breaks the size part
of the invariant. -/
theorem C3_invariant_preservation (α : Type) :
    (∀ m : Mem α, WfM m → Wf m emptyLL) ∧
    (∀ (m : Mem α) (ll : LL), Wf m ll → Invariant m ll) ∧
    (∀ (m : Mem α) (ll : LL) (v : α), Wf m ll →
      Wf (PushFront m ll v).1 (PushFront m ll v).2) ∧
    (∀ (m : Mem α) (vs : List α) (m' : Mem α) (r : Option LL), WfM m →
      initList (fun x => some x) m vs = (m', r) →
      ∃ ll', r = some ll' ∧ Wf m' ll') ∧
    (∀ (m : Mem α) (src : LL) (lS : List (Nat × α)) (m' : Mem α)
       (r : Option LL), WfM m → Chain m.heap src.headNext lS →
      CopyCtorE (fun x => some x) m src = (m', r) →
      ∃ ll', r = some ll' ∧ Wf m' ll') ∧
    (∀ (m : Mem α) (lhs rhs : LL) (lL lR : List (Nat × α)), WfM m →
      Chain m.heap lhs.headNext lL → Chain m.heap rhs.headNext lR →
      ∃ m' lhs', assignE (fun x => some x) m lhs rhs = (m', some lhs') ∧
        Wf m' lhs') ∧
    (∀ (m : Mem α) (ll : LL) (pos : Ptr) (v : α)
       (l1 l2 : List (Nat × α)),
      WfM m → Chain m.heap ll.headNext (l1 ++ l2) →
      (l1 ++ l2).length = ll.size_ → PosOk pos l1 →
      ∃ m' ll' ret, InsertAfter m ll pos v = some (m', ll', ret) ∧
        Wf m' ll') ∧
    (∀ (m : Mem α) (ll : LL) (pos : Ptr) (l1 l2 : List (Nat × α))
       (b : Nat) (w : α),
      WfM m → Chain m.heap ll.headNext (l1 ++ (b, w) :: l2) →
      (l1 ++ (b, w) :: l2).length = ll.size_ → PosOk pos l1 →
      ∃ m' ll' ret, EraseAfter m ll pos = some (m', ll', ret) ∧
        Wf m' ll') ∧
    (∀ (m : Mem α) (ll : LL) (l : List (Nat × α)),
      WfM m → Chain m.heap ll.headNext l → l.length = ll.size_ →
      ¬ l = [] →
      ∃ m' ll' ret, PopFront m ll = some (m', ll', ret) ∧ Wf m' ll') ∧
    (∀ (m : Mem α) (ll : LL), Wf m ll →
      ∃ m', ClearOp m ll = some (m', ⟨Ptr.null, 0⟩) ∧
        Wf m' ⟨Ptr.null, 0⟩) ∧
    (∀ (m : Mem α) (a b : LL), Wf m a → Wf m b →
      Wf m (swapLL a b).1 ∧ Wf m (swapLL a b).2) ∧
    (∀ (m : Mem α) (ll : LL) (vs : List α) (m' : Mem α) (r : Option LL),
      Wf m ll → ll.headNext = Ptr.null →
      CreateOp (fun x => some x) m ll vs = (m', r) →
      ∃ ll', r = some ll' ∧ Wf m' ll') := by
  refine ⟨?_, ?_, ?_, ?_, ?_, ?_, ?_, ?_, ?_, ?_, ?_, ?_⟩
  · -- default construction
    intro m hwf
    exact ⟨hwf, [], Seg.nil, rfl⟩
  · -- well formedness implies the specified invariant
    intro m ll hwf
    exact wf_invariant hwf
  · -- push front
    rintro m ll v ⟨hwf, l, hch, hlen⟩
    obtain ⟨hwf', hch', hsize', _, _⟩ := pushFront_spec v hwf hch
    refine ⟨hwf', (m.fresh, v) :: l, hch', ?_⟩
    simp only [List.length_cons]
    omega
  · -- construction from a value sequence
    intro m vs m' r hwf heq
    have heq2 : createEAux (fun x => some x) m emptyLL Ptr.sentinel vs
        = (m', r) := heq
    obtain ⟨hwf', _, _, hsucc, hfail⟩ :=
      createEAux_spec (fun x => some x) m.fresh vs m emptyLL
        Ptr.sentinel [] m' r hwf Seg.nil (Or.inl ⟨rfl, rfl⟩) le_rfl
        (by simp [addrs]) heq2
    cases r with
    | none =>
      have hc := hfail rfl
      rw [mapCp_id] at hc
      exact absurd hc (by simp)
    | some ll' =>
      obtain ⟨lnew, hch', hsize', _, _⟩ := hsucc ll' rfl
      refine ⟨ll', rfl, hwf', lnew, by simpa using hch', ?_⟩
      have hsz : ll'.size_ = 0 + lnew.length := hsize'
      omega
  · -- copy construction
    intro m src lS m' r hwf hch heq
    obtain ⟨hwf', _, _, hsucc, hfail⟩ :=
      copyCtorE_spec (fun x => some x) hwf hch m' r heq
    cases r with
    | none =>
      have hc := hfail rfl
      rw [mapCp_id] at hc
      exact absurd hc (by simp)
    | some ll' =>
      obtain ⟨lnew, hch', hsize', _, _⟩ := hsucc ll' rfl
      exact ⟨ll', rfl, hwf', lnew, hch', hsize'.symm⟩
  · -- copy assignment
    intro m lhs rhs lL lR hwf hL hR
    have hlhs_lt : ∀ a ∈ addrs lL, a < m.fresh := chain_keys_lt hwf hL
    rcases hcc : CopyCtorE (fun x => some x) m rhs with ⟨m1, rc⟩
    obtain ⟨hwf1, hfr1, hframe1, hsucc1, hfail1⟩ :=
      copyCtorE_spec _ hwf hR m1 rc hcc
    have hch_l1 : Chain m1.heap lhs.headNext lL :=
      seg_agree (fun a ha => hframe1 a (hlhs_lt a ha)) hL
    cases rc with
    | none =>
      have hc := hfail1 rfl
      rw [mapCp_id] at hc
      exact absurd hc (by simp)
    | some cpll =>
      obtain ⟨lnew, hchC, hsizeC, hkeysC, _⟩ := hsucc1 cpll rfl
      obtain ⟨h', hclear, hsub, hframe2⟩ := clearOp_spec hch_l1
      have heqA : assignE (fun x => some x) m lhs rhs
          = (⟨h', m1.fresh⟩, some cpll) := by
        simp only [assignE, hcc, hclear]
      have hchC' : Chain (⟨h', m1.fresh⟩ : Mem α).heap cpll.headNext
          lnew := by
        refine seg_agree ?_ hchC
        intro a ha
        refine hframe2 a ?_
        intro hc
        have h4 := hkeysC a ha
        have h5 := hlhs_lt a hc
        omega
      exact ⟨⟨h', m1.fresh⟩, cpll, heqA,
        wfm_sublist hsub hwf1, lnew, hchC', hsizeC.symm⟩
  · -- insert after
    intro m ll pos v l1 l2 hwf hch hlen hpos
    obtain ⟨m', ll', heval, hch', hsize', hwf', _, _, _⟩ :=
      insertAfter_spec v hwf hch hpos
    refine ⟨m', ll', Ptr.node m.fresh, heval, hwf',
      l1 ++ (m.fresh, v) :: l2, hch', ?_⟩
    rw [List.length_append] at hlen ⊢
    simp only [List.length_cons]
    omega
  · -- erase after
    intro m ll pos l1 l2 b w hwf hch hlen hpos
    obtain ⟨m', ll', heval, hch', hsize', hwf', _, _⟩ :=
      eraseAfter_spec hwf hch hpos
    refine ⟨m', ll', headPtr l2, heval, hwf', l1 ++ l2, hch', ?_⟩
    rw [List.length_append] at hlen ⊢
    simp only [List.length_cons] at hlen
    omega
  · -- pop front
    intro m ll l hwf hch hlen hnil
    cases l with
    | nil => exact absurd rfl hnil
    | cons x l2 =>
      obtain ⟨b, w⟩ := x
      have hch0 : Chain m.heap ll.headNext ([] ++ (b, w) :: l2) := by
        simpa using hch
      obtain ⟨m', ll', heval, hch', hsize', hwf', _, _⟩ :=
        eraseAfter_spec hwf hch0 (Or.inl ⟨rfl, rfl⟩)
      refine ⟨m', ll', headPtr l2, heval, hwf', l2,
        by simpa using hch', ?_⟩
      simp only [List.length_cons] at hlen
      omega
  · -- clear
    rintro m ll ⟨hwf, l, hch, _⟩
    obtain ⟨h', heval, hsub, _⟩ := clearOp_spec hch
    exact ⟨⟨h', m.fresh⟩, heval, wfm_sublist hsub hwf, [], Seg.nil, rfl⟩
  · -- swap
    intro m a b hwa hwb
    exact ⟨hwb, hwa⟩
  · -- Create on an empty target
    rintro m ll vs m' r ⟨hwf, l, hch, hlen⟩ hnull heq
    rw [hnull] at hch
    have hlnil := seg_null_nil hch
    subst hlnil
    have hchE : Chain m.heap ll.headNext [] := by
      rw [hnull]
      exact Seg.nil
    have heq2 : createEAux (fun x => some x) m ll Ptr.sentinel vs
        = (m', r) := heq
    obtain ⟨hwf', _, _, hsucc, hfail⟩ :=
      createEAux_spec (fun x => some x) m.fresh vs m ll
        Ptr.sentinel [] m' r hwf hchE (Or.inl ⟨rfl, rfl⟩) le_rfl
        (by simp [addrs]) heq2
    cases r with
    | none =>
      have hc := hfail rfl
      rw [mapCp_id] at hc
      exact absurd hc (by simp)
    | some ll' =>
      obtain ⟨lnew, hch', hsize', _, _⟩ := hsucc ll' rfl
      refine ⟨ll', rfl, hwf', lnew, by simpa using hch', ?_⟩
      simp only [List.length_nil] at hlen
      omega

/-- C3 witness: the default constructed list in empty memory is well
formed, satisfies the specified invariant, and stays well formed after
a `PushFront`. -/
theorem C3_invariant_preservation_witness :
    Wf (emptyMem Nat) emptyLL ∧
    Invariant (emptyMem Nat) emptyLL ∧
    Wf (PushFront (emptyMem Nat) emptyLL 5).1
      (PushFront (emptyMem Nat) emptyLL 5).2 := by
  have hwf : Wf (emptyMem Nat) emptyLL :=
    ⟨⟨by decide, by decide⟩, [], Seg.nil, rfl⟩
  exact ⟨hwf, (C3_invariant_preservation Nat).2.1 _ _ hwf,
    (C3_invariant_preservation Nat).2.2.1 _ _ 5 hwf⟩

end SLL
